import Mathlib

set_option autoImplicit false

/-!
Shallow embedding of the resume-parsing core of `src/parser.py`
(text normalization, section segmentation, contact extraction, per-section
field extractors, assembly), together with proofs about the claims of the
specification.  Strings are modelled as `List Char`; Python's case mapping
is modelled on ASCII letters; Python's whitespace and line-boundary
character sets are transcribed below.  Fallible operations of the source
(list indexing) are modelled in an `Except String` monad so that
"never raises" is a provable statement.
-/

abbrev LC := List Char

def lc (s : String) : LC := s.data

/-- Python whitespace (the set accepted by `str.strip()` / regex `\s`). -/
def pyIsSpace (c : Char) : Bool :=
  c = ' ' || c = '\t' || c = '\n' || c = '\r' || c = '\x0b' || c = '\x0c' ||
  c = '\x1c' || c = '\x1d' || c = '\x1e' || c = '\x1f' || c = '\x85' ||
  c = '\u00a0' || c = '\u1680' ||
  (0x2000 ≤ c.toNat && c.toNat ≤ 0x200a) ||
  c = '\u2028' || c = '\u2029' || c = '\u202f' || c = '\u205f' || c = '\u3000'

/-- Line boundaries of Python `str.splitlines` (besides the pair "\r\n"). -/
def isLineBoundary (c : Char) : Bool :=
  c = '\n' || c = '\r' || c = '\x0b' || c = '\x0c' ||
  c = '\x1c' || c = '\x1d' || c = '\x1e' || c = '\x85' ||
  c = '\u2028' || c = '\u2029'

def isAsciiUpper (c : Char) : Bool := 'A' ≤ c && c ≤ 'Z'
def isAsciiLower (c : Char) : Bool := 'a' ≤ c && c ≤ 'z'
def isAsciiAlpha (c : Char) : Bool := isAsciiUpper c || isAsciiLower c
def isAsciiDigit (c : Char) : Bool := '0' ≤ c && c ≤ '9'
def isWordChar (c : Char) : Bool := isAsciiAlpha c || isAsciiDigit c || c = '_'

/-- Python `str.upper`, modelled on ASCII letters. -/
def pyUpperChar (c : Char) : Char :=
  if isAsciiLower c then Char.ofNat (c.toNat - 32) else c

/-- Python `str.lower`, modelled on ASCII letters. -/
def pyLowerChar (c : Char) : Char :=
  if isAsciiUpper c then Char.ofNat (c.toNat + 32) else c

def pyUpper (l : LC) : LC := l.map pyUpperChar
def pyLower (l : LC) : LC := l.map pyLowerChar

/-- Python `str.strip()` (no argument): drop whitespace from both ends. -/
def pyStrip (l : LC) : LC :=
  ((l.dropWhile pyIsSpace).reverse.dropWhile pyIsSpace).reverse

/-- Python `str.strip(chars)`: drop the given characters from both ends. -/
def pyStripChars (cs : List Char) (l : LC) : LC :=
  ((l.dropWhile (fun c => cs.contains c)).reverse.dropWhile
      (fun c => cs.contains c)).reverse

/-- Python `str.replace(a, b)` for single characters
    (also used for `re.sub` of a single-character pattern). -/
def replaceChar (a b : Char) (l : LC) : LC :=
  l.map (fun c => if c = a then b else c)

/-- Worker for `re.sub(r"[class]+", " ", t)`: every maximal run of
    characters of the class becomes one space.  The flag records whether
    we are inside a run whose single space has already been emitted. -/
def collapseClassGo (p : Char → Bool) : Bool → LC → LC
  | _, [] => []
  | inRun, c :: cs =>
    if p c then
      if inRun then collapseClassGo p true cs
      else ' ' :: collapseClassGo p true cs
    else c :: collapseClassGo p false cs

def isSpaceOrTab (c : Char) : Bool := c = ' ' || c = '\t'

/-- `re.sub(r"[ \t]+", " ", t)`. -/
def collapseSpaceTab (l : LC) : LC := collapseClassGo isSpaceOrTab false l

def isSpaceChar (c : Char) : Bool := c = ' '

/-- `re.sub(r"[ ]+", " ", t)`: space runs collapse; tabs are left alone. -/
def collapseSpaces (l : LC) : LC := collapseClassGo isSpaceChar false l

/-- `re.sub(r"\n{3,}", "\n\n", t)`: a maximal run of `n` newlines becomes
    `min n 2` newlines.  `n` counts the pending newline run. -/
def emitNl (n : Nat) : LC := List.replicate (min n 2) '\n'

def collapseNlGo : Nat → LC → LC
  | n, [] => emitNl n
  | n, c :: cs =>
    if c = '\n' then collapseNlGo (n + 1) cs
    else emitNl n ++ c :: collapseNlGo 0 cs

def collapseNl (l : LC) : LC := collapseNlGo 0 l

/-- Python `str.splitlines`, worker: always yields at least one piece;
    a trailing boundary yields a trailing empty piece which
    `pySplitlines` removes. -/
def splitlinesGo : LC → List LC
  | [] => [[]]
  | [c] => if isLineBoundary c then [[], []] else [[c]]
  | c :: d :: cs =>
    if c = '\r' && d = '\n' then [] :: splitlinesGo cs
    else if isLineBoundary c then [] :: splitlinesGo (d :: cs)
    else
      match splitlinesGo (d :: cs) with
      | [] => [[c]]
      | p :: ps => (c :: p) :: ps

/-- Python `str.splitlines`. -/
def pySplitlines (l : LC) : List LC :=
  let ps := splitlinesGo l
  if ps.getLast? = some [] then ps.dropLast else ps

/-- `"\n".join(...)`. -/
def joinNl : List LC → LC
  | [] => []
  | [l] => l
  | l :: ls => l ++ '\n' :: joinNl ls

/-- `_normalize_text` of src/parser.py (collapsing mode): tabs to spaces,
    non-breaking spaces to spaces, collapse space/tab runs, strip every
    line, collapse runs of 3+ newlines to 2, strip the whole text. -/
def normalize_text (t : LC) : LC :=
  let t1 := replaceChar '\t' ' ' t
  let t2 := replaceChar '\u00a0' ' ' t1
  let t3 := collapseSpaceTab t2
  let t4 := joinNl ((pySplitlines t3).map pyStrip)
  let t5 := collapseNl t4
  pyStrip t5

/-- `_normalize_text_preserve_tabs` of src/parser.py: like
    `_normalize_text` but tabs are kept and only space runs are
    collapsed. -/
def normalize_text_preserve_tabs (t : LC) : LC :=
  let t1 := replaceChar '\u00a0' ' ' t
  let t2 := collapseSpaces t1
  let t3 := joinNl ((pySplitlines t2).map pyStrip)
  let t4 := collapseNl t3
  pyStrip t4

/-! ### Header canonicalization and section segmentation -/

/-- The character class `[A-Za-z\s&]` of `HEADER_PATTERN`. -/
def headerClassChar (c : Char) : Bool := isAsciiAlpha c || pyIsSpace c || c = '&'

/-- Full match of `HEADER_PATTERN = ^(?P<hdr>[A-Za-z][A-Za-z\s&]+?)(:?\s*)$`
    against a whole string: a letter, at least one more class character,
    then an optional colon and trailing whitespace.  (Python's `match`
    on a stripped line and the `^`-anchored `search` on the whole text
    both reduce to this full match, since `$` also accepts a final
    newline consumed by `\s*`.) -/
def headerLineMatch (s : LC) : Bool :=
  let u := (s.reverse.dropWhile pyIsSpace).reverse
  let v := if u.getLast? = some ':' then u.dropLast else u
  match v with
  | [] => false
  | c :: rest => isAsciiAlpha c && !rest.isEmpty && rest.all headerClassChar

/-- The `hdr` group of a successful `HEADER_PATTERN` match: the lazily
    matched group is everything up to the optional colon / trailing
    whitespace. -/
def hdrGroup (s : LC) : LC :=
  let u := (s.reverse.dropWhile pyIsSpace).reverse
  if u.getLast? = some ':' then u.dropLast else u

/-- Index of the first ':' that is followed only by whitespace
    (the match of `re.sub(r":\s*$", "", s)`). -/
def colonWsTailIdx : LC → Option Nat
  | [] => none
  | ':' :: cs => if cs.all pyIsSpace then some 0 else (colonWsTailIdx cs).map (· + 1)
  | _ :: cs => (colonWsTailIdx cs).map (· + 1)

/-- `re.sub(r":\s*$", "", s)`. -/
def stripTrailColon (x : LC) : LC :=
  match colonWsTailIdx x with
  | some i => x.take i
  | none => x

/-- The `HEADER_ALIASES` table of src/parser.py, transcribed. -/
def HEADER_ALIASES : List (String × List String) :=
  [("CONTACT INFORMATION", ["CONTACT INFORMATION", "CONTACT", "INFO"]),
   ("SUMMARY", ["SUMMARY", "OBJECTIVE"]),
   ("EXPERIENCE", ["EXPERIENCE", "WORK EXPERIENCE", "PROFESSIONAL EXPERIENCE"]),
   ("EDUCATION", ["EDUCATION"]),
   ("PROJECTS", ["PROJECTS"]),
   ("TECHNICAL SKILLS", ["TECHNICAL SKILLS", "SKILLS"]),
   ("CERTIFICATIONS & LICENSES", ["CERTIFICATIONS & LICENSES", "CERTIFICATIONS", "LICENSES"]),
   ("LANGUAGES", ["LANGUAGES", "LANGUAGE"]),
   ("VOLUNTEER EXPERIENCE", ["VOLUNTEER EXPERIENCE", "VOLUNTEER"])]

/-- `_canonical_header` of src/parser.py. -/
def canonical_header (s : LC) : Option String :=
  let sClean := stripTrailColon (pyStrip (pyUpper s))
  (HEADER_ALIASES.find? fun p =>
      sClean = lc p.1 || p.2.any fun a => sClean = lc a).map (·.1)

/-- One line of `_split_sections`'s scan: `HEADER_PATTERN.match(line.strip())`,
    then `_canonical_header` of the `hdr` group. -/
def canonicalOfLine (line : LC) : Option String :=
  if headerLineMatch (pyStrip line) then canonical_header (hdrGroup (pyStrip line))
  else none

/-- The section boundaries: (line index, canonical name) in document order. -/
def boundaryList (lines : List LC) : List (Nat × String) :=
  lines.enum.filterMap fun p => (canonicalOfLine p.2).map fun h => (p.1, h)

/-- `"\n".join(lines[start+1:endIdx]).strip()`. -/
def bodyAt (lines : List LC) (start endIdx : Nat) : LC :=
  pyStrip (joinNl ((lines.drop (start + 1)).take (endIdx - (start + 1))))

/-- The (canonical name, body) pairs in document order, one per boundary. -/
def occList (lines : List LC) : List (Nat × String) → List (String × LC)
  | [] => []
  | (i, n) :: rest =>
    let e := match rest.head? with
             | some q => q.1
             | none => lines.length
    (n, bodyAt lines i e) :: occList lines rest

/-- Python dict assignment `m[k] = v`: overwrite in place or append. -/
def dictInsert (m : List (String × LC)) (k : String) (v : LC) : List (String × LC) :=
  match m with
  | [] => [(k, v)]
  | (k0, v0) :: rest =>
    if k0 = k then (k0, v) :: rest else (k0, v0) :: dictInsert rest k v

/-- Python dict lookup / `in` test. -/
def dictLookup (m : List (String × LC)) (k : String) : Option LC :=
  match m with
  | [] => none
  | (k0, v0) :: rest => if k0 = k then some v0 else dictLookup rest k

/-- The insertion loop of `_split_sections`: a body is stored only when
    non-empty. -/
def insertBodies (m : List (String × LC)) : List (String × LC) → List (String × LC)
  | [] => m
  | (n, b) :: rest => insertBodies (if b ≠ [] then dictInsert m n b else m) rest

/-- `_split_sections` of src/parser.py. -/
def split_sections (text : LC) : List (String × LC) :=
  let lines := pySplitlines text
  insertBodies [] (occList lines (boundaryList lines))

/-! ### Regular-expression primitives, transcribed as deterministic matchers

Each matcher implements one pattern of src/parser.py at a fixed start
position; `firstSomeBy` supplies `re.search`'s leftmost-position scan.
Greedy repetition followed by a character outside the repeated class is
deterministic, so no general backtracking engine is needed; the one place
where the engine backtracks (a greedy `+` whose class contains the
follow-set, in the email/website patterns) is resolved by trying split
points from longest to shortest. -/

def firstSomeBy {α : Type} (f : LC → Option α) : LC → Option α
  | [] => f []
  | c :: cs =>
    match f (c :: cs) with
    | some r => some r
    | none => firstSomeBy f cs

def listStartsWith (pat s : LC) : Bool := pat.isPrefixOf s

/-- Case-insensitive prefix test (for patterns compiled with `re.I`). -/
def startsWithCI : LC → LC → Bool
  | [], _ => true
  | _ :: _, [] => false
  | p :: ps, c :: cs => pyLowerChar p = pyLowerChar c && startsWithCI ps cs

def isEmailLocalChar (c : Char) : Bool :=
  isAsciiAlpha c || isAsciiDigit c || c = '.' || c = '_' || c = '%' || c = '+' || c = '-'

def isEmailDomChar (c : Char) : Bool :=
  isAsciiAlpha c || isAsciiDigit c || c = '.' || c = '-'

/-- `[A-Za-z0-9._%+-]+@[A-Za-z0-9.-]+\.[A-Za-z]{2,}` at the start of `s`.
    The greedy domain run backtracks to the largest split `d` with a dot
    followed by at least two letters. -/
def emailAt (s : LC) : Option LC :=
  let locPart := s.takeWhile isEmailLocalChar
  if locPart.isEmpty then none else
  match s.drop locPart.length with
  | '@' :: rest =>
    let dom := rest.takeWhile isEmailDomChar
    match (List.range dom.length).reverse.find? (fun d =>
        decide (1 ≤ d) && ((dom.drop d).take 1 == ['.']) &&
        decide (2 ≤ ((rest.drop (d + 1)).takeWhile isAsciiAlpha).length)) with
    | some d =>
      some (locPart ++ '@' :: rest.take d ++ '.' ::
            (rest.drop (d + 1)).takeWhile isAsciiAlpha)
    | none => none
  | _ => none

/-- The separator class `[\s\.\-]` of the phone pattern. -/
def isSepChar (c : Char) : Bool := pyIsSpace c || c = '.' || c = '-'

/-- `\d{n}`. -/
def takeDigits (n : Nat) (s : LC) : Option (LC × LC) :=
  let ds := s.take n
  if ds.length = n && ds.all isAsciiDigit then some (ds, s.drop n) else none

/-- `\(?\d{3}\)?[\s\.\-]?\d{3}[\s\.\-]?\d{4}`; every optional element is
    consumed when present (its class is disjoint from what follows). -/
def phoneCore (s : LC) : Option LC := do
  let (p1, s1) := match s with
                  | '(' :: r => ((['('] : LC), r)
                  | _ => (([] : LC), s)
  let (d1, s2) ← takeDigits 3 s1
  let (p2, s3) := match s2 with
                  | ')' :: r => (([')'] : LC), r)
                  | _ => (([] : LC), s2)
  let (x1, s4) := match s3 with
                  | c :: r => if isSepChar c then (([c] : LC), r) else (([] : LC), s3)
                  | [] => (([] : LC), s3)
  let (d2, s5) ← takeDigits 3 s4
  let (x2, s6) := match s5 with
                  | c :: r => if isSepChar c then (([c] : LC), r) else (([] : LC), s5)
                  | [] => (([] : LC), s5)
  let (d3, _) ← takeDigits 4 s6
  pure (p1 ++ d1 ++ p2 ++ x1 ++ d2 ++ x2 ++ d3)

/-- `(?:\+1\s*)?` then `phoneCore`.  When "+1" is present but the core
    fails, retrying without the optional group also fails ('+' is neither
    '(' nor a digit), so no backtracking is needed. -/
def phoneAt (s : LC) : Option LC :=
  match s with
  | '+' :: '1' :: rest =>
    let ws := rest.takeWhile pyIsSpace
    (phoneCore (rest.drop ws.length)).map (fun core => '+' :: '1' :: ws ++ core)
  | _ => phoneCore s

/-- The class `[A-Za-z\.\s]` of the location pattern. -/
def isLocClassChar (c : Char) : Bool := isAsciiAlpha c || c = '.' || pyIsSpace c

/-- `[A-Za-z][A-Za-z\.\s]+,\s*[A-Za-z]{2}\b` at the start of `s`. -/
def locAt (s : LC) : Option LC :=
  match s with
  | c :: _ =>
    if isAsciiAlpha c then
      let run := s.takeWhile isLocClassChar
      if run.length < 2 then none else
      match s.drop run.length with
      | ',' :: rest =>
        let ws := rest.takeWhile pyIsSpace
        match rest.drop ws.length with
        | a :: b :: rest2 =>
          if isAsciiAlpha a && isAsciiAlpha b &&
             (match rest2 with
              | [] => true
              | d :: _ => !isWordChar d) then
            some (run ++ ',' :: ws ++ [a, b])
          else none
        | _ => none
      | _ => none
    else none
  | [] => none

def isNonSpace (c : Char) : Bool := !pyIsSpace c

/-- `\S+` (at least one non-space character). -/
def nonSpaceRun (s : LC) : Option (LC × LC) :=
  let run := s.takeWhile isNonSpace
  if run.isEmpty then none else some (run, s.drop run.length)

/-- `https?://` (case-sensitive; the greedy `s?` is tried first). -/
def webScheme (s : LC) : Option (LC × LC) :=
  match s with
  | 'h' :: 't' :: 't' :: 'p' :: 's' :: ':' :: '/' :: '/' :: r => some (lc "https://", r)
  | 'h' :: 't' :: 't' :: 'p' :: ':' :: '/' :: '/' :: r => some (lc "http://", r)
  | _ => none

/-- First website alternative `https?://\S+`. -/
def webAlt1 (s : LC) : Option LC := do
  let (sch, r) ← webScheme s
  let (run, _) ← nonSpaceRun r
  pure (sch ++ run)

/-- Second website alternative `www\.\S+`. -/
def webAlt2 (s : LC) : Option LC :=
  match s with
  | 'w' :: 'w' :: 'w' :: '.' :: r => (nonSpaceRun r).map (fun p => lc "www." ++ p.1)
  | _ => none

/-- Third website alternative `\S+\.com\b`: the greedy `\S+` backtracks to
    the largest split followed by ".com" at a word boundary. -/
def webAlt3 (s : LC) : Option LC :=
  let run := s.takeWhile isNonSpace
  match (List.range run.length).reverse.find? (fun d =>
      decide (1 ≤ d) && ((run.drop d).take 4 == lc ".com") &&
      (match (run.drop (d + 4)).head? with
       | some c => !isWordChar c
       | none => true)) with
  | some d => some (run.take (d + 4))
  | none => none

/-- `(https?://\S+|www\.\S+|\S+\.com\b)` at the start of `s`. -/
def websiteAt (s : LC) : Option LC := webAlt1 s <|> webAlt2 s <|> webAlt3 s

/-- `site` followed by `\S+`, case-insensitively (for linkedin/github). -/
def siteCore (site : LC) (s : LC) : Option LC :=
  if startsWithCI site s then
    let k := site.length
    let run := (s.drop k).takeWhile isNonSpace
    if run.isEmpty then none else some (s.take k ++ run)
  else none

/-- `(?:https?://)?` under `re.I`. -/
def schemeCI (s : LC) : Option (LC × LC) :=
  if startsWithCI (lc "https://") s then some (s.take 8, s.drop 8)
  else if startsWithCI (lc "http://") s then some (s.take 7, s.drop 7)
  else none

/-- `(?:www\.)?` under `re.I`. -/
def wwwCI (s : LC) : Option (LC × LC) :=
  if startsWithCI (lc "www.") s then some (s.take 4, s.drop 4) else none

/-- `(?:https?://)?(?:www\.)?<site>\S+` under `re.I`; greedy options are
    tried with-then-without, outermost first. -/
def urlSiteAt (site : LC) (s : LC) : Option LC :=
  let step2 : LC → LC → Option LC := fun pre r =>
    match wwwCI r with
    | some (w, r2) =>
      match siteCore site r2 with
      | some m => some (pre ++ w ++ m)
      | none => (siteCore site r).map (pre ++ ·)
    | none => (siteCore site r).map (pre ++ ·)
  match schemeCI s with
  | some (sc, r) =>
    match step2 sc r with
    | some m => some m
    | none => step2 [] s
  | none => step2 [] s

/-- The month alternation `(?:Jan|Feb|...|Dec)` under `re.I`. -/
def monthPrefixes : List LC :=
  [lc "Jan", lc "Feb", lc "Mar", lc "Apr", lc "May", lc "Jun",
   lc "Jul", lc "Aug", lc "Sep", lc "Oct", lc "Nov", lc "Dec"]

/-- `(?:Jan|...|Dec)[a-z]*\s+\d{4}` under `re.I`: returns the matched text
    and the rest. -/
def monthYearAt (s : LC) : Option (LC × LC) :=
  if monthPrefixes.any (fun m => startsWithCI m s) then
    let tail := (s.drop 3).takeWhile isAsciiAlpha
    let s1 := s.drop (3 + tail.length)
    let ws := s1.takeWhile pyIsSpace
    if ws.isEmpty then none else
    match takeDigits 4 (s1.drop ws.length) with
    | some (ds, s3) => some (s.take (3 + tail.length) ++ ws ++ ds, s3)
    | none => none
  else none

def isDashChar (c : Char) : Bool := c = '-' || c = '–' || c = '—'

/-- The date-range pattern of `_extract_dates_from_text`:
    `(?i)(Month YYYY)\s*[-–—]\s*(Present|Month YYYY)`.
    Returns (whole match, group 1, group 2). -/
def dateRangeAt (s : LC) : Option (LC × LC × LC) := do
  let (g1, s1) ← monthYearAt s
  let ws1 := s1.takeWhile pyIsSpace
  match s1.drop ws1.length with
  | d :: s3 =>
    if isDashChar d then
      let ws2 := s3.takeWhile pyIsSpace
      let s4 := s3.drop ws2.length
      if startsWithCI (lc "Present") s4 then
        pure (g1 ++ ws1 ++ d :: ws2 ++ s4.take 7, g1, s4.take 7)
      else do
        let (g2, _) ← monthYearAt s4
        pure (g1 ++ ws1 ++ d :: ws2 ++ g2, g1, g2)
    else none
  | [] => none

/-- `_extract_dates_from_text` of src/parser.py. -/
def extract_dates_from_text (text : LC) : Option LC × Option LC :=
  match firstSomeBy dateRangeAt text with
  | some (_, g1, g2) =>
    (some (pyStrip g1), some (if g2 = lc "Present" then lc "Present" else pyStrip g2))
  | none =>
    match firstSomeBy (fun s => (monthYearAt s).map (·.1)) text with
    | some g1 => (some (pyStrip g1), none)
    | none => (none, none)

/-- `_extract_location_from_text` of src/parser.py. -/
def extract_location_from_text (text : LC) : Option LC := firstSomeBy locAt text

/-- `re.sub` of the date-range pattern with replacement "" (used by the
    fallback title/tech-stack cleanups); fuel is bounded by the length. -/
def dateRangeSubGo : Nat → LC → LC
  | _, [] => []
  | 0, s => s
  | f + 1, c :: cs =>
    match dateRangeAt (c :: cs) with
    | some (m, _, _) => dateRangeSubGo f ((c :: cs).drop m.length)
    | none => c :: dateRangeSubGo f cs

def dateRangeSub (s : LC) : LC := dateRangeSubGo s.length s

/-- Python `str.replace(pat, "")`: remove every (leftmost, non-overlapping)
    occurrence; fuel is bounded by the length. -/
def replaceAllSubGo : Nat → LC → LC → LC
  | _, _, [] => []
  | 0, _, s => s
  | f + 1, pat, c :: cs =>
    if !pat.isEmpty && listStartsWith pat (c :: cs) then
      replaceAllSubGo f pat ((c :: cs).drop pat.length)
    else c :: replaceAllSubGo f pat cs

def replaceAllSub (pat s : LC) : LC := replaceAllSubGo s.length pat s

/-- `re.split(r'\s{2,}|\t', s)`: separators are whitespace runs of length
    at least two, or a single tab. -/
def splitWideGo : Nat → LC → LC → List LC
  | _, acc, [] => [acc.reverse]
  | 0, acc, s => [acc.reverse ++ s]
  | f + 1, acc, s =>
    match s with
    | [] => [acc.reverse]
    | c :: cs =>
      let run := s.takeWhile pyIsSpace
      if 2 ≤ run.length then acc.reverse :: splitWideGo f [] (s.drop run.length)
      else if c = '\t' then acc.reverse :: splitWideGo f [] cs
      else splitWideGo f (c :: acc) cs

def splitWide (s : LC) : List LC := splitWideGo s.length [] s

/-- `re.split(r'\s+—\s+', s)`. -/
def splitEmDashGo : Nat → LC → LC → List LC
  | _, acc, [] => [acc.reverse]
  | 0, acc, s => [acc.reverse ++ s]
  | f + 1, acc, s =>
    match s with
    | [] => [acc.reverse]
    | c :: cs =>
      let w1 := s.takeWhile pyIsSpace
      if 1 ≤ w1.length then
        match s.drop w1.length with
        | '—' :: r2 =>
          let w2 := r2.takeWhile pyIsSpace
          if 1 ≤ w2.length then acc.reverse :: splitEmDashGo f [] (r2.drop w2.length)
          else splitEmDashGo f (c :: acc) cs
        | _ => splitEmDashGo f (c :: acc) cs
      else splitEmDashGo f (c :: acc) cs

def splitEmDash (s : LC) : List LC := splitEmDashGo s.length [] s

/-- `re.split(r"[,\|]", s)`. -/
def splitCommaPipe : LC → List LC
  | [] => [[]]
  | c :: cs =>
    if c = ',' || c = '|' then [] :: splitCommaPipe cs
    else
      match splitCommaPipe cs with
      | [] => [[c]]
      | p :: ps => (c :: p) :: ps

/-- Python `str.split('|')`. -/
def splitPipe : LC → List LC
  | [] => [[]]
  | c :: cs =>
    if c = '|' then [] :: splitPipe cs
    else
      match splitPipe cs with
      | [] => [[c]]
      | p :: ps => (c :: p) :: ps

/-- Index of the last '\n' in a list (for the `\n\s*\n` separator). -/
def lastNlIdx (w : LC) : Option Nat :=
  match w.reverse.findIdx? (fun c => c = '\n') with
  | some j => some (w.length - 1 - j)
  | none => none

/-- `re.split(r"\n\s*\n", s)`: after a '\n', the greedy `\s*` extends the
    separator to the last '\n' inside the following whitespace run. -/
def splitChunksGo : Nat → LC → LC → List LC
  | _, acc, [] => [acc.reverse]
  | 0, acc, s => [acc.reverse ++ s]
  | f + 1, acc, s =>
    match s with
    | [] => [acc.reverse]
    | c :: cs =>
      if c = '\n' then
        match lastNlIdx (cs.takeWhile pyIsSpace) with
        | some k => acc.reverse :: splitChunksGo f [] (cs.drop (k + 1))
        | none => splitChunksGo f ('\n' :: acc) cs
      else splitChunksGo f (c :: acc) cs

def splitChunks (s : LC) : List LC := splitChunksGo s.length [] s

/-- `_split_blocks_by_blanklines` of src/parser.py. -/
def split_blocks_by_blanklines (block : LC) : List LC :=
  ((splitChunks block).map pyStrip).filter (fun c => !c.isEmpty)

/-- `re.sub(r"^\s*(?:[-•*]|\d+\.)\s+", "", l)`: strip one leading bullet
    marker (the trailing `\s+` is required). -/
def bulletStrip (l : LC) : LC :=
  let w := l.takeWhile pyIsSpace
  let r := l.drop w.length
  let afterMarker : Option LC :=
    match r with
    | '-' :: t => some t
    | '•' :: t => some t
    | '*' :: t => some t
    | _ =>
      let ds := r.takeWhile isAsciiDigit
      if ds.isEmpty then none
      else
        match r.drop ds.length with
        | '.' :: t => some t
        | _ => none
  match afterMarker with
  | some t =>
    let w2 := t.takeWhile pyIsSpace
    if w2.isEmpty then l else t.drop w2.length
  | none => l

/-- `_bullets` of src/parser.py. -/
def bullets (text : LC) : List LC :=
  (((pySplitlines text).map pyStrip).filter (fun l => !l.isEmpty)).map bulletStrip

def gpaClassChar (c : Char) : Bool := isAsciiDigit c || c = '.'

/-- `GPA[:\s]+([\d\.]+\/?[\d\.]*)` under `re.I` at the start of `s`
    (without the leading `\b`, which the search loop checks): returns
    group 1. -/
def gpaCore (s : LC) : Option LC :=
  if startsWithCI (lc "GPA") s then
    let r := s.drop 3
    let sep := r.takeWhile (fun c => c = ':' || pyIsSpace c)
    if sep.isEmpty then none else
    let r2 := r.drop sep.length
    let num := r2.takeWhile gpaClassChar
    if num.isEmpty then none else
    match r2.drop num.length with
    | '/' :: r3 => some (num ++ '/' :: r3.takeWhile gpaClassChar)
    | _ => some num
  else none

/-- `re.search(r"\bGPA[:\s]+([\d\.]+\/?[\d\.]*)", s, re.I)`: the word
    boundary `\b` is checked against the previous character. -/
def gpaSearchGo : Option Char → LC → Option LC
  | _, [] => none
  | prev, c :: cs =>
    match (if (match prev with
               | some p => !isWordChar p
               | none => true) then gpaCore (c :: cs) else none) with
    | some g => some g
    | none => gpaSearchGo (some c) cs

def searchGpa (s : LC) : Option LC := gpaSearchGo none s

/-- `re.match(r"([A-Za-z\s]+)\s*\(([^)]+)\)", line)`: returns
    (group 1, group 2). -/
def langMatch (line : LC) : Option (LC × LC) :=
  let run := line.takeWhile (fun c => isAsciiAlpha c || pyIsSpace c)
  if run.isEmpty then none else
  match line.drop run.length with
  | '(' :: r =>
    let inner := r.takeWhile (fun c => c ≠ ')')
    if inner.isEmpty then none else
    match r.drop inner.length with
    | ')' :: _ => some (run, inner)
    | _ => none
  | _ => none

/-- Python `str.title`, modelled on ASCII letters. -/
def pyTitleGo : Bool → LC → LC
  | _, [] => []
  | prevAlpha, c :: cs =>
    (if isAsciiAlpha c then (if prevAlpha then pyLowerChar c else pyUpperChar c) else c)
      :: pyTitleGo (isAsciiAlpha c) cs

def pyTitle (l : LC) : LC := pyTitleGo false l

/-- Python `str.split(":", 1)`. -/
def splitColonOnceGo : LC → LC → List LC
  | acc, [] => [acc.reverse]
  | acc, ':' :: cs => [acc.reverse, cs]
  | acc, c :: cs => splitColonOnceGo (c :: acc) cs

def splitColonOnce (l : LC) : List LC := splitColonOnceGo [] l

deriving instance DecidableEq for Except

/-! ### Data model (src/schema.py), the fields the parser constructs -/

inductive Priority
  | high
  | med
  | low
deriving DecidableEq, Repr

structure Contact where
  name : Option LC := none
  email : Option LC := none
  phone : Option LC := none
  location : Option LC := none
  website : Option LC := none
  linkedin : Option LC := none
  github : Option LC := none
  citizenship : Option LC := none
  clearance : Option LC := none
deriving DecidableEq, Repr

structure ExperienceItem where
  title : Option LC := none
  company : Option LC := none
  location : Option LC := none
  start_date : Option LC := none
  end_date : Option LC := none
  bullets : List LC := []
  skills : List LC := []
  priority : Option Priority := none
deriving DecidableEq, Repr

structure EducationItem where
  school : Option LC := none
  location : Option LC := none
  degree : Option LC := none
  major : Option LC := none
  gpa : Option LC := none
  dates : Option LC := none
  bullets : List LC := []
  concentrations : List LC := []
  coursework : List LC := []
  honors : List LC := []
  priority : Option Priority := none
deriving DecidableEq, Repr

structure ProjectItem where
  name : Option LC := none
  location : Option LC := none
  dates : Option LC := none
  bullets : List LC := []
  skills : List LC := []
  priority : Option Priority := none
deriving DecidableEq, Repr

/-- The `Resume` record, restricted to the fields `parse_resume` can set
    (the remaining fields of src/schema.py — skills_matrix, honors,
    interests, affiliations, publications, awards, meta — are never
    written by the parser and stay at their empty defaults).
    `certifications` is `List LC` because `_parse_certs` de facto
    produces a list of strings. -/
structure Resume where
  contact : Contact := {}
  summary : Option LC := none
  experience : List ExperienceItem := []
  education : List EducationItem := []
  projects : List ProjectItem := []
  skills : List LC := []
  certifications : List LC := []
  languages : List LC := []
  volunteer : List ProjectItem := []
deriving DecidableEq, Repr

/-! ### Extractors (src/parser.py); Python list indexing `xs[i]` is the
fallible primitive `pyNth`, so the absence of `IndexError` is provable -/

def pyNth {α : Type} (xs : List α) (i : Nat) : Except String α :=
  match xs.get? i with
  | some v => Except.ok v
  | none => Except.error "IndexError"

/-- Python `s or None` for strings: an empty string becomes `None`. -/
def orNone (l : LC) : Option LC := if l.isEmpty then none else some l

/-- The location loop of `_parse_contact_block` over `lines[1:]`. -/
def locFromLines : List LC → Option LC
  | [] => none
  | l :: ls =>
    match firstSomeBy locAt l with
    | some m => some m
    | none => locFromLines ls

/-- `_parse_contact_block` of src/parser.py.  `HEADER_PATTERN.search` is
    compiled without `re.MULTILINE`, so its `^` anchors only at position 0:
    it matches iff the whole text matches the header pattern, and then
    `m.start() = 0` makes the preamble `full_text[:0]` empty; otherwise
    the preamble is the entire text. -/
def parse_contact_block (full_text : LC) : Except String Contact := do
  let top := if headerLineMatch full_text then [] else full_text
  let lines := pySplitlines top
  let name ←
    if lines.isEmpty then pure none
    else do pure (some (pyStrip (← pyNth lines 0)))
  let contact_text := joinNl lines
  pure { name := name.bind orNone,
         email := firstSomeBy emailAt contact_text,
         phone := firstSomeBy phoneAt contact_text,
         location := locFromLines (lines.drop 1),
         website := firstSomeBy websiteAt contact_text,
         linkedin := firstSomeBy (urlSiteAt (lc "linkedin.com/")) contact_text,
         github := firstSomeBy (urlSiteAt (lc "github.com/")) contact_text }

/-- The nonblank lines of a chunk:
    `[l for l in c.splitlines() if l.strip()]`. -/
def nonblankLines (c : LC) : List LC :=
  (pySplitlines c).filter (fun l => !(pyStrip l).isEmpty)

/-- `f"{start_date} - {end_date}" if end_date else start_date`, guarded by
    `if start_date:` (also equals the `start_date and end_date` variant of
    the simple-project branch, since extracted dates are never empty
    strings). -/
def fmtDates (sd ed : Option LC) : Option LC :=
  match sd with
  | some s =>
    some (match ed with
          | some e => s ++ lc " - " ++ e
          | none => s)
  | none => none

/-- One chunk of `_parse_experience`. -/
def parse_experience_chunk (lines : List LC) : Except String ExperienceItem := do
  let first_line ← pyNth lines 0
  let parts := splitEmDash (pyStrip first_line)
  if first_line.contains '—' && 2 ≤ parts.length then do
    let title := pyStrip (← pyNth parts 0)
    let cld := pyStrip (← pyNth parts 1)
    let location := extract_location_from_text cld
    let company :=
      match location with
      | some loc => pyStripChars (lc " ,") (replaceAllSub loc cld)
      | none => cld
    let (sd, ed) := extract_dates_from_text cld
    let desc := if 2 ≤ lines.length then joinNl (lines.drop 1) else []
    pure { title := orNone title, company := orNone company, location := location,
           start_date := sd, end_date := ed, bullets := bullets desc }
  else do
    let company_line ← pyNth lines 0
    let cparts := splitWide (pyStrip company_line)
    let (company, location) ←
      if 2 ≤ cparts.length then do
        pure (pyStrip (← pyNth cparts 0), some (pyStrip (← pyNth cparts 1)))
      else
        pure (match extract_location_from_text company_line with
              | some loc =>
                (pyStrip (pyStripChars (lc " -–—•") (replaceAllSub loc company_line)),
                 some loc)
              | none => (company_line, none))
    let (title, sd, ed) ←
      if 2 ≤ lines.length then do
        let title_line ← pyNth lines 1
        let tparts := splitWide (pyStrip title_line)
        if 2 ≤ tparts.length then do
          let t := pyStrip (← pyNth tparts 0)
          let date_text := pyStrip (← pyNth tparts 1)
          let (sd, ed) := extract_dates_from_text date_text
          pure (some t, sd, ed)
        else
          pure (match extract_dates_from_text title_line with
                | (some s, e) =>
                  (some (pyStrip (pyStripChars (lc " -–—•") (dateRangeSub title_line))),
                   some s, e)
                | (none, e) => (some (pyStrip title_line), none, e))
      else pure (none, none, none)
    let desc := if 3 ≤ lines.length then joinNl (lines.drop 2) else []
    pure { title := title.bind orNone, company := orNone company, location := location,
           start_date := sd, end_date := ed, bullets := bullets desc }

def parse_experience_list : List LC → Except String (List ExperienceItem)
  | [] => pure []
  | c :: cs => do
    let lines := nonblankLines c
    if lines.isEmpty then parse_experience_list cs
    else do
      let item ← parse_experience_chunk lines
      let rest ← parse_experience_list cs
      pure (item :: rest)

/-- `_parse_experience` of src/parser.py. -/
def parse_experience (block : LC) : Except String (List ExperienceItem) :=
  parse_experience_list (split_blocks_by_blanklines block)

/-- The date-from-bullets fallback of `_parse_education`: the first bullet
    containing a date supplies `dates` and is removed (all equal copies). -/
def eduDateScan (all : List LC) : List LC → Option LC × List LC
  | [] => (none, all)
  | b :: rest =>
    match extract_dates_from_text b with
    | (some s, ed) => (fmtDates (some s) ed, all.filter (fun x => x ≠ b))
    | (none, _) => eduDateScan all rest

/-- One chunk of `_parse_education`. -/
def parse_education_chunk (lines : List LC) : Except String EducationItem := do
  let school_line ← pyNth lines 0
  let location := extract_location_from_text school_line
  let school :=
    match location with
    | some loc => pyStrip (pyStripChars (lc " -–—•") (replaceAllSub loc school_line))
    | none => pyStrip school_line
  let (degree, gpa, dates) ←
    if 2 ≤ lines.length then do
      let degree_line ← pyNth lines 1
      let gpa := searchGpa degree_line
      let (sd, ed) := extract_dates_from_text degree_line
      pure (some degree_line, gpa, fmtDates sd ed)
    else pure (none, none, none)
  let bl := if 3 ≤ lines.length then bullets (joinNl (lines.drop 2)) else []
  let (dates2, bl2) :=
    match dates with
    | some _ => (dates, bl)
    | none => if bl.isEmpty then (dates, bl) else eduDateScan bl bl
  pure { school := orNone school, location := location, degree := degree.bind orNone,
         major := none, gpa := gpa, dates := dates2, bullets := bl2 }

def parse_education_list : List LC → Except String (List EducationItem)
  | [] => pure []
  | c :: cs => do
    let lines := nonblankLines c
    if lines.isEmpty then parse_education_list cs
    else do
      let item ← parse_education_chunk lines
      let rest ← parse_education_list cs
      pure (item :: rest)

/-- `_parse_education` of src/parser.py. -/
def parse_education (block : LC) : Except String (List EducationItem) :=
  parse_education_list (split_blocks_by_blanklines block)

/-- `[s.strip() for s in tech_stack.split('|') if s.strip()]`. -/
def pipeSkills (tech_stack : LC) : List LC :=
  ((splitPipe tech_stack).map pyStrip).filter (fun s => !s.isEmpty)

/-- One chunk of `_parse_projects`. -/
def parse_projects_chunk (lines : List LC) : Except String ProjectItem := do
  let name_line ← pyNth lines 0
  let parts := splitEmDash (pyStrip name_line)
  if name_line.contains '—' && 2 ≤ parts.length then do
    let name := pyStrip (← pyNth parts 0)
    let date_text := pyStrip (← pyNth parts 1)
    let (sd, ed) := extract_dates_from_text date_text
    let bl := if 2 ≤ lines.length then bullets (joinNl (lines.drop 1)) else []
    pure { name := orNone name, location := none, dates := fmtDates sd ed,
           bullets := bl, skills := [] }
  else do
    let nparts := splitWide (pyStrip name_line)
    let (name, location) ←
      if 2 ≤ nparts.length then do
        pure (pyStrip (← pyNth nparts 0), some (pyStrip (← pyNth nparts 1)))
      else
        pure (match extract_location_from_text name_line with
              | some loc =>
                (pyStrip (pyStripChars (lc " -–—•") (replaceAllSub loc name_line)),
                 some loc)
              | none => (name_line, none))
    let (skills, dates) ←
      if 2 ≤ lines.length then do
        let tech_line ← pyNth lines 1
        let tparts := splitWide (pyStrip tech_line)
        if 2 ≤ tparts.length then do
          let tech_stack := pyStrip (← pyNth tparts 0)
          let date_text := pyStrip (← pyNth tparts 1)
          let skills := if !tech_stack.isEmpty then pipeSkills tech_stack else []
          let (sd, ed) := extract_dates_from_text date_text
          pure (skills, fmtDates sd ed)
        else
          let (sd, ed) := extract_dates_from_text tech_line
          let tech_stack := pyStrip (dateRangeSub tech_line)
          let skills := if !tech_stack.isEmpty then pipeSkills tech_stack else []
          pure (skills, fmtDates sd ed)
      else pure ([], none)
    let bl := if 3 ≤ lines.length then bullets (joinNl (lines.drop 2)) else []
    pure { name := orNone name, location := location, dates := dates,
           bullets := bl, skills := skills }

def parse_projects_list : List LC → Except String (List ProjectItem)
  | [] => pure []
  | c :: cs => do
    let lines := nonblankLines c
    if lines.isEmpty then parse_projects_list cs
    else do
      let item ← parse_projects_chunk lines
      let rest ← parse_projects_list cs
      pure (item :: rest)

/-- `_parse_projects` of src/parser.py. -/
def parse_projects (block : LC) : Except String (List ProjectItem) :=
  parse_projects_list (split_blocks_by_blanklines block)

/-- One chunk of `_parse_volunteer`. -/
def parse_volunteer_chunk (lines : List LC) : Except String ProjectItem := do
  let name_line ← pyNth lines 0
  let nparts := splitWide (pyStrip name_line)
  let (name, location) ←
    if 2 ≤ nparts.length then do
      pure (pyStrip (← pyNth nparts 0), some (pyStrip (← pyNth nparts 1)))
    else
      pure (match extract_location_from_text name_line with
            | some loc =>
              (pyStrip (pyStripChars (lc " -–—•") (replaceAllSub loc name_line)),
               some loc)
            | none => (name_line, none))
  let dates ←
    if 2 ≤ lines.length then do
      let org_line ← pyNth lines 1
      let oparts := splitWide (pyStrip org_line)
      if 2 ≤ oparts.length then do
        let _org := pyStrip (← pyNth oparts 0)
        let date_text := pyStrip (← pyNth oparts 1)
        let (sd, ed) := extract_dates_from_text date_text
        pure (fmtDates sd ed)
      else
        let (sd, ed) := extract_dates_from_text org_line
        pure (fmtDates sd ed)
    else pure none
  let bl := if 3 ≤ lines.length then bullets (joinNl (lines.drop 2)) else []
  pure { name := orNone name, location := location, dates := dates,
         bullets := bl, skills := [] }

def parse_volunteer_list : List LC → Except String (List ProjectItem)
  | [] => pure []
  | c :: cs => do
    let lines := nonblankLines c
    if lines.isEmpty then parse_volunteer_list cs
    else do
      let item ← parse_volunteer_chunk lines
      let rest ← parse_volunteer_list cs
      pure (item :: rest)

/-- `_parse_volunteer` of src/parser.py. -/
def parse_volunteer (block : LC) : Except String (List ProjectItem) :=
  parse_volunteer_list (split_blocks_by_blanklines block)

/-- One line of `_parse_skills`: right-hand side after a colon if present,
    then comma/pipe tokens, stripped, non-empty. -/
def skillTokensLine (line : LC) : Except String (List LC) := do
  let rhs ← if line.contains ':' then pyNth (splitColonOnce line) 1 else pure line
  pure (((splitCommaPipe rhs).map pyStrip).filter (fun p => !p.isEmpty))

def skillTokensList : List LC → Except String (List LC)
  | [] => pure []
  | l :: ls =>
    if (pyStrip l).isEmpty then skillTokensList ls
    else do
      let ps ← skillTokensLine l
      let rest ← skillTokensList ls
      pure (ps ++ rest)

/-- The token-collection loop of `_parse_skills` (before deduplication). -/
def skillTokens (block : LC) : Except String (List LC) :=
  skillTokensList (pySplitlines block)

/-- The case-insensitive first-wins deduplication loop (used both by
    `_parse_skills` and by the assembler's skill merge). -/
def dedupCIGo (seen : List LC) : List LC → List LC
  | [] => []
  | s :: ss =>
    if seen.contains (pyLower s) then dedupCIGo seen ss
    else s :: dedupCIGo (pyLower s :: seen) ss

def dedupCI (l : List LC) : List LC := dedupCIGo [] l

/-- `_parse_skills` of src/parser.py. -/
def parse_skills (block : LC) : Except String (List LC) := do
  let toks ← skillTokens block
  pure (dedupCI toks)

/-- The while-loop of `_parse_certs`, as recursion over the nonblank
    lines: the next line is consumed as the organization when it is not
    header-shaped. -/
def certsLoop : List LC → List LC
  | [] => []
  | [name] => [pyStrip name]
  | name :: next :: rest2 =>
    if !headerLineMatch (pyStrip next) then
      (pyStrip name ++ lc " — " ++ pyStrip next) :: certsLoop rest2
    else pyStrip name :: certsLoop (next :: rest2)

/-- `_parse_certs` of src/parser.py. -/
def parse_certs (block : LC) : List LC :=
  certsLoop ((pySplitlines block).filter (fun l => !(pyStrip l).isEmpty))

/-- One line of `_parse_languages`. -/
def parse_languages_line (line : LC) : LC :=
  match langMatch line with
  | some (langPart, level) => pyStrip langPart ++ lc " — " ++ pyTitle (pyStrip level)
  | none => line

/-- `_parse_languages` of src/parser.py. -/
def parse_languages (block : LC) : List LC :=
  ((((pySplitlines block).map pyStrip).filter (fun l => !l.isEmpty)).map
    parse_languages_line)

/-- `for key in keys: if key in sections: ... break`. -/
def pickSection (sections : List (String × LC)) : List String → Option LC
  | [] => none
  | k :: ks =>
    match dictLookup sections k with
    | some b => some b
    | none => pickSection sections ks

/-- `parse_resume` of src/parser.py, from the raw text onwards (the
    `_read_text` container extraction is an external collaborator and out
    of the parsing core's scope). -/
def parse_resume_text (raw : LC) : Except String Resume := do
  let text := normalize_text_preserve_tabs raw
  let sections := split_sections text
  let contact ← parse_contact_block text
  let summary :=
    match dictLookup sections "SUMMARY" with
    | some b => some b
    | none => dictLookup sections "OBJECTIVE"
  let experience ←
    match pickSection sections ["EXPERIENCE", "WORK EXPERIENCE", "PROFESSIONAL EXPERIENCE"] with
    | some b => parse_experience b
    | none => pure []
  let education ←
    match dictLookup sections "EDUCATION" with
    | some b => parse_education b
    | none => pure []
  let projects ←
    match dictLookup sections "PROJECTS" with
    | some b => parse_projects b
    | none => pure []
  let project_skills := (projects.map (fun p => p.skills)).flatten
  let main_skills ←
    match pickSection sections ["TECHNICAL SKILLS", "SKILLS"] with
    | some b => parse_skills b
    | none => pure []
  let certifications :=
    match pickSection sections ["CERTIFICATIONS & LICENSES", "CERTIFICATIONS", "LICENSES"] with
    | some b => parse_certs b
    | none => []
  let languages :=
    match pickSection sections ["LANGUAGES", "LANGUAGE"] with
    | some b => parse_languages b
    | none => []
  let volunteer ←
    match pickSection sections ["VOLUNTEER EXPERIENCE", "VOLUNTEER"] with
    | some b => parse_volunteer b
    | none => pure []
  pure { contact := contact, summary := summary, experience := experience,
         education := education, projects := projects,
         skills := dedupCI (main_skills ++ project_skills),
         certifications := certifications, languages := languages,
         volunteer := volunteer }

/-! ### Invariant machinery for normalization idempotence -/

/-- Boolean adjacent-pair chain: `R` holds for every two consecutive
    characters. -/
def chainB (R : Char → Char → Bool) : LC → Bool
  | [] => true
  | [_] => true
  | a :: b :: cs => R a b && chainB R (b :: cs)

theorem chainB_cons (R : Char → Char → Bool) (a : Char) (l : LC) :
    chainB R (a :: l) =
      ((match l.head? with
        | none => true
        | some b => R a b) && chainB R l) := by
  cases l <;> simp [chainB]

theorem chainB_append (R : Char → Char → Bool) (xs ys : LC) :
    chainB R (xs ++ ys) = true ↔
      (chainB R xs = true ∧ chainB R ys = true ∧
        ∀ x ∈ xs.getLast?, ∀ y ∈ ys.head?, R x y = true) := by
  induction xs with
  | nil => simp [chainB]
  | cons a xs ih =>
    cases xs with
    | nil =>
      cases ys with
      | nil => simp [chainB]
      | cons b ys =>
        simp only [List.singleton_append]
        rw [chainB_cons]
        simp only [List.head?_cons, Bool.and_eq_true]
        constructor
        · rintro ⟨h1, h2⟩
          refine ⟨by simp [chainB], h2, ?_⟩
          intro x hx y hy
          simp only [List.getLast?_singleton, Option.mem_def, Option.some.injEq] at hx
          simp only [List.head?_cons, Option.mem_def, Option.some.injEq] at hy
          subst hx; subst hy; exact h1
        · rintro ⟨-, h2, hb⟩
          exact ⟨hb a (by simp) b (by simp), h2⟩
    | cons a2 xs2 =>
      simp only [List.cons_append] at ih ⊢
      rw [chainB_cons, chainB_cons (l := a2 :: xs2)]
      simp only [List.head?_cons, List.getLast?_cons_cons]
      constructor
      · intro h
        have h1 := (Bool.and_eq_true _ _).mp h
        have h2 := ih.mp h1.2
        exact ⟨(Bool.and_eq_true _ _).mpr ⟨h1.1, h2.1⟩, h2.2.1, h2.2.2⟩
      · intro ⟨hx, hy, hb⟩
        have h1 := (Bool.and_eq_true _ _).mp hx
        exact (Bool.and_eq_true _ _).mpr ⟨h1.1, ih.mpr ⟨h1.2, hy, hb⟩⟩

theorem chainB_mono {R S : Char → Char → Bool}
    (h : ∀ a b, R a b = true → S a b = true) :
    ∀ l, chainB R l = true → chainB S l = true := by
  intro l
  induction l with
  | nil => intro; rfl
  | cons a l ih =>
    rw [chainB_cons, chainB_cons]
    intro hc
    have h1 := (Bool.and_eq_true _ _).mp hc
    refine (Bool.and_eq_true _ _).mpr ⟨?_, ih h1.2⟩
    cases hh : l.head? with
    | none => rfl
    | some b => simp only [hh] at h1 ⊢; exact h a b h1.1

theorem chainB_within {R : Char → Char → Bool} {m l : LC}
    (hm : m <:+: l) (h : chainB R l = true) : chainB R m = true := by
  rcases hm with ⟨s, t, rfl⟩
  rw [List.append_assoc] at h
  exact ((chainB_append R m t).mp ((chainB_append R s (m ++ t)).mp h).2.1).1

theorem head_dropWhile_not (p : Char → Bool) (l : LC) :
    ∀ c ∈ (l.dropWhile p).head?, p c = false := by
  induction l with
  | nil => intro c hc; simp [List.dropWhile] at hc
  | cons a l ih =>
    intro c hc
    rw [List.dropWhile_cons] at hc
    by_cases hp : p a = true
    · rw [if_pos hp] at hc; exact ih c hc
    · rw [if_neg hp] at hc
      simp only [List.head?_cons, Option.mem_def, Option.some.injEq] at hc
      subst hc
      cases h2 : p a with
      | true => exact absurd h2 hp
      | false => rfl

theorem dropWhile_eq_self_of_head (p : Char → Bool) (l : LC)
    (h : ∀ c ∈ l.head?, p c = false) : l.dropWhile p = l := by
  cases l with
  | nil => rfl
  | cons a l => simp [List.dropWhile, h a (by simp)]

theorem pyStrip_within (l : LC) : pyStrip l <:+: l := by
  have h1 : l.dropWhile pyIsSpace <:+ l := List.dropWhile_suffix _
  have h2 : pyStrip l <+: l.dropWhile pyIsSpace := by
    rw [← List.reverse_suffix]
    unfold pyStrip
    rw [List.reverse_reverse]
    exact List.dropWhile_suffix _
  exact h2.isInfix.trans h1.isInfix

theorem suffix_getLast? {l1 l2 : LC} (h : l1 <:+ l2) (hne : l1 ≠ []) :
    l1.getLast? = l2.getLast? := by
  rcases h with ⟨t, rfl⟩
  exact (List.getLast?_append_of_ne_nil t hne).symm

theorem pyStrip_head (l : LC) : ∀ c ∈ (pyStrip l).head?, pyIsSpace c = false := by
  intro c hc
  unfold pyStrip at hc
  rw [List.head?_reverse] at hc
  by_cases hz : ((l.dropWhile pyIsSpace).reverse.dropWhile pyIsSpace) = []
  · rw [hz] at hc; simp at hc
  · rw [suffix_getLast? (List.dropWhile_suffix _) hz, List.getLast?_reverse] at hc
    exact head_dropWhile_not pyIsSpace l c hc

theorem pyStrip_getLast (l : LC) : ∀ c ∈ (pyStrip l).getLast?, pyIsSpace c = false := by
  intro c hc
  unfold pyStrip at hc
  rw [List.getLast?_reverse] at hc
  exact head_dropWhile_not _ _ c hc

theorem pyStrip_eq_self {l : LC} (h1 : ∀ c ∈ l.head?, pyIsSpace c = false)
    (h2 : ∀ c ∈ l.getLast?, pyIsSpace c = false) : pyStrip l = l := by
  unfold pyStrip
  rw [dropWhile_eq_self_of_head _ _ h1]
  rw [dropWhile_eq_self_of_head _ _ (by simpa [List.head?_reverse] using h2)]
  exact List.reverse_reverse l

theorem pyStrip_idem (l : LC) : pyStrip (pyStrip l) = pyStrip l :=
  pyStrip_eq_self (pyStrip_head l) (pyStrip_getLast l)

theorem pyStrip_mem {c : Char} {l : LC} (h : c ∈ pyStrip l) : c ∈ l :=
  (pyStrip_within l).mem h

/-- No two adjacent spaces (the collapsed-run invariant). -/
def noTwoSpacePred (a b : Char) : Bool := !(a = ' ' && b = ' ')

/-- Whitespace other than a newline. -/
def otherWs (c : Char) : Bool := pyIsSpace c && !(c = '\n')

/-- Lines are stripped: no non-newline whitespace adjacent to a newline. -/
def lineEdgePred (a b : Char) : Bool :=
  !(a = '\n' && otherWs b) && !(otherWs a && b = '\n')

/-- Three consecutive newlines occur somewhere. -/
def hasTripleNl : LC → Bool
  | [] => false
  | c :: cs => (c = '\n' && cs.take 2 = ['\n', '\n']) || hasTripleNl cs

theorem hasTripleNl_append_right {ys : LC} (xs : LC) (h : hasTripleNl ys = true) :
    hasTripleNl (xs ++ ys) = true := by
  induction xs with
  | nil => simpa using h
  | cons c xs ih => simp [hasTripleNl, ih]

theorem hasTripleNl_append_left {xs : LC} (ys : LC) (h : hasTripleNl xs = true) :
    hasTripleNl (xs ++ ys) = true := by
  induction xs with
  | nil => simp [hasTripleNl] at h
  | cons c xs ih =>
    simp only [hasTripleNl, Bool.or_eq_true, Bool.and_eq_true, decide_eq_true_eq] at h ⊢
    rcases h with ⟨hc, ht⟩ | h
    · left
      refine ⟨hc, ?_⟩
      have hlen : 2 ≤ xs.length := by
        have := congrArg List.length ht
        simp at this
        omega
      rw [show xs.append ys = xs ++ ys from rfl, List.take_append_of_le_length hlen]
      exact ht
    · right; exact ih h

theorem hasTripleNl_within {m l : LC} (hm : m <:+: l) (h : hasTripleNl l = false) :
    hasTripleNl m = false := by
  cases ht : hasTripleNl m with
  | false => rfl
  | true =>
    exfalso
    rcases hm with ⟨s, t, rfl⟩
    rw [List.append_assoc, hasTripleNl_append_right s (hasTripleNl_append_left t ht)] at h
    exact Bool.true_eq_false.mp h

/-! Lemmas about the generic class-run collapser. -/

theorem collapseClassGo_mem (p : Char → Bool) :
    ∀ (l : LC) (flag : Bool) (c : Char), c ∈ collapseClassGo p flag l →
      c = ' ' ∨ (c ∈ l ∧ p c = false) := by
  intro l
  induction l with
  | nil => intro flag c hc; simp [collapseClassGo] at hc
  | cons a cs ih =>
    intro flag c hc
    by_cases hp : p a = true
    · cases flag with
      | true =>
        simp only [collapseClassGo, hp, if_pos] at hc
        rcases ih true c hc with h | ⟨h1, h2⟩
        · exact Or.inl h
        · exact Or.inr ⟨List.mem_cons_of_mem a h1, h2⟩
      | false =>
        simp only [collapseClassGo, hp, if_pos] at hc
        rcases List.mem_cons.mp hc with h | h
        · exact Or.inl h
        · rcases ih true c h with h2 | ⟨h1, h2⟩
          · exact Or.inl h2
          · exact Or.inr ⟨List.mem_cons_of_mem a h1, h2⟩
    · have hpa : p a = false := by cases h2 : p a with
        | true => exact absurd h2 hp
        | false => rfl
      simp only [collapseClassGo, hpa, Bool.false_eq_true, if_false] at hc
      rcases List.mem_cons.mp hc with h | h
      · subst h
        exact Or.inr ⟨List.mem_cons_self _ _, hpa⟩
      · rcases ih false c h with h2 | ⟨h1, h2⟩
        · exact Or.inl h2
        · exact Or.inr ⟨List.mem_cons_of_mem a h1, h2⟩

theorem collapseClassGo_head_true (p : Char → Bool) :
    ∀ l : LC, ∀ c ∈ (collapseClassGo p true l).head?, p c = false := by
  intro l
  induction l with
  | nil => intro c hc; simp [collapseClassGo] at hc
  | cons a cs ih =>
    intro c hc
    by_cases hp : p a = true
    · simp only [collapseClassGo, hp, if_pos] at hc
      exact ih c hc
    · have hpa : p a = false := by
        cases h2 : p a with
        | true => exact absurd h2 hp
        | false => rfl
      simp only [collapseClassGo, hpa, Bool.false_eq_true, if_false,
        List.head?_cons, Option.mem_def, Option.some.injEq] at hc
      subst hc
      exact hpa

theorem collapseClassGo_chain (p : Char → Bool) :
    ∀ (l : LC) (flag : Bool),
      chainB (fun a b => !(p a && p b)) (collapseClassGo p flag l) = true := by
  intro l
  induction l with
  | nil => intro flag; rfl
  | cons a cs ih =>
    intro flag
    by_cases hp : p a = true
    · cases flag with
      | true => simpa only [collapseClassGo, hp, if_pos, if_true] using ih true
      | false =>
        simp only [collapseClassGo, hp, if_pos, Bool.false_eq_true, if_false]
        rw [chainB_cons]
        refine (Bool.and_eq_true _ _).mpr ⟨?_, ih true⟩
        cases hh : (collapseClassGo p true cs).head? with
        | none => rfl
        | some b =>
          have hb := collapseClassGo_head_true p cs b (by rw [hh]; rfl)
          simp [hb]
    · have hpa : p a = false := by
        cases h2 : p a with
        | true => exact absurd h2 hp
        | false => rfl
      simp only [collapseClassGo, hpa, Bool.false_eq_true, if_false]
      rw [chainB_cons]
      refine (Bool.and_eq_true _ _).mpr ⟨?_, ih false⟩
      cases hh : (collapseClassGo p false cs).head? with
      | none => rfl
      | some b => simp [hpa]

theorem collapseClassGo_id (p : Char → Bool) :
    ∀ l : LC, chainB (fun a b => !(p a && p b)) l = true →
      (∀ c ∈ l, p c = true → c = ' ') →
      (collapseClassGo p false l = l ∧
        ((∀ c ∈ l.head?, p c = false) → collapseClassGo p true l = l)) := by
  intro l
  induction l with
  | nil => intro _ _; exact ⟨rfl, fun _ => rfl⟩
  | cons a cs ih =>
    intro hch hsp
    rw [chainB_cons] at hch
    have hch2 := (Bool.and_eq_true _ _).mp hch
    have ihcs := ih hch2.2 (fun c hc hpc => hsp c (List.mem_cons_of_mem a hc) hpc)
    by_cases hp : p a = true
    · have ha : a = ' ' := hsp a (List.mem_cons_self _ _) hp
      have hhead : ∀ c ∈ cs.head?, p c = false := by
        intro c hc
        cases hh : cs.head? with
        | none => rw [hh] at hc; simp at hc
        | some b =>
          rw [hh] at hc
          simp only [Option.mem_def, Option.some.injEq] at hc
          subst hc
          simp only [hh, hp, Bool.not_eq_true', Bool.and_eq_false_iff] at hch2
          rcases hch2.1 with h | h
          · exact absurd h (by simp [hp])
          · exact h
      constructor
      · simp only [collapseClassGo, hp, if_pos, Bool.false_eq_true, if_false]
        rw [ihcs.2 hhead, ha]
      · intro hna
        exact absurd hp (by simpa using hna a (by simp))
    · have hpa : p a = false := by
        cases h2 : p a with
        | true => exact absurd h2 hp
        | false => rfl
      constructor
      · simp only [collapseClassGo, hpa, Bool.false_eq_true, if_false]
        rw [ihcs.1]
      · intro _
        simp only [collapseClassGo, hpa, Bool.false_eq_true, if_false]
        rw [ihcs.1]

/-! Lemmas about the newline-run collapser. -/

theorem chainB_replicate {R : Char → Char → Bool} (hR : R '\n' '\n' = true) :
    ∀ k, chainB R (List.replicate k '\n') = true := by
  intro k
  induction k with
  | zero => rfl
  | succ n ih =>
    rw [List.replicate_succ, chainB_cons]
    refine (Bool.and_eq_true _ _).mpr ⟨?_, ih⟩
    cases n with
    | zero => rfl
    | succ m => simp [List.replicate_succ, hR]

theorem getLast?_replicate_nl (k : Nat) (hk : 1 ≤ k) :
    (List.replicate k '\n').getLast? = some '\n' := by
  induction k with
  | zero => omega
  | succ n ih =>
    cases n with
    | zero => rfl
    | succ m =>
      rw [List.replicate_succ,
        show List.replicate (m + 1) '\n' = '\n' :: List.replicate m '\n' from rfl,
        List.getLast?_cons_cons,
        show ('\n' : Char) :: List.replicate m '\n' = List.replicate (m + 1) '\n' from rfl]
      exact ih (by omega)

theorem head?_collapseNlGo :
    ∀ (l : LC) (n : Nat),
      (collapseNlGo n l).head? = if 1 ≤ n then some '\n' else l.head? := by
  intro l
  induction l with
  | nil =>
    intro n
    cases n with
    | zero => rfl
    | succ m =>
      have : min (m + 1) 2 = Nat.succ (min m 1) := by omega
      simp only [collapseNlGo, emitNl, this, List.replicate_succ, List.head?_cons]
      rw [if_pos (by omega)]
  | cons c cs ih =>
    intro n
    by_cases hc : c = '\n'
    · subst hc
      have h1 : collapseNlGo n ('\n' :: cs) = collapseNlGo (n + 1) cs := by
        simp [collapseNlGo]
      rw [h1, ih (n + 1), if_pos (by omega : 1 ≤ n + 1)]
      by_cases hn : 1 ≤ n
      · rw [if_pos hn]
      · rw [if_neg hn]
        simp
    · simp only [collapseNlGo, if_neg hc]
      cases n with
      | zero => simp [emitNl]
      | succ m =>
        have : min (m + 1) 2 = Nat.succ (min m 1) := by omega
        simp only [emitNl, this, List.replicate_succ, List.cons_append, List.head?_cons]
        rw [if_pos (by omega)]

theorem collapseNlGo_chain {R : Char → Char → Bool} (hR : R '\n' '\n' = true) :
    ∀ (l : LC) (n : Nat),
      chainB R (List.replicate n '\n' ++ l) = true →
      chainB R (collapseNlGo n l) = true := by
  intro l
  induction l with
  | nil =>
    intro n _
    show chainB R (emitNl n) = true
    exact chainB_replicate hR (min n 2)
  | cons c cs ih =>
    intro n h
    by_cases hc : c = '\n'
    · subst hc
      rw [show collapseNlGo n ('\n' :: cs) = collapseNlGo (n + 1) cs from by
        simp [collapseNlGo]]
      apply ih (n + 1)
      have h2 : List.replicate (n + 1) '\n' ++ cs =
          List.replicate n '\n' ++ '\n' :: cs := by
        rw [List.replicate_succ']
        simp
      rw [h2]
      exact h
    · rw [show collapseNlGo n (c :: cs) = emitNl n ++ c :: collapseNlGo 0 cs from by
        simp [collapseNlGo, hc]]
      rcases (chainB_append R (List.replicate n '\n') (c :: cs)).mp h with
        ⟨hrep, hccs, hbound⟩
      have hccs2 := hccs
      rw [chainB_cons] at hccs2
      rcases (Bool.and_eq_true _ _).mp hccs2 with ⟨hpair, hcs⟩
      apply (chainB_append R (emitNl n) (c :: collapseNlGo 0 cs)).mpr
      refine ⟨chainB_replicate hR _, ?_, ?_⟩
      · rw [chainB_cons]
        refine (Bool.and_eq_true _ _).mpr ⟨?_, ih 0 (by simpa using hcs)⟩
        rw [head?_collapseNlGo cs 0, if_neg (by omega)]
        exact hpair
      · intro x hx y hy
        cases n with
        | zero => simp [emitNl] at hx
        | succ m =>
          rw [show emitNl (m + 1) = List.replicate (min (m + 1) 2) '\n' from rfl,
            getLast?_replicate_nl _ (by omega)] at hx
          simp only [Option.mem_def, Option.some.injEq] at hx
          simp only [List.head?_cons, Option.mem_def, Option.some.injEq] at hy
          subst hx
          subst hy
          exact hbound '\n' (by rw [getLast?_replicate_nl (m + 1) (by omega)]; rfl) c
            (by simp)

theorem emitNl_no_triple (n : Nat) : hasTripleNl (emitNl n) = false := by
  have h3 : min n 2 = 0 ∨ min n 2 = 1 ∨ min n 2 = 2 := by omega
  rcases h3 with h | h | h <;> rw [emitNl, h] <;> decide

theorem hasTripleNl_emit_cons (n : Nat) (c : Char) (hc : ¬c = '\n') (rest : LC) :
    hasTripleNl (emitNl n ++ c :: rest) = hasTripleNl rest := by
  have h3 : min n 2 = 0 ∨ min n 2 = 1 ∨ min n 2 = 2 := by omega
  rcases h3 with h | h | h <;>
    simp [emitNl, h, List.replicate, hasTripleNl, hc]

theorem collapseNlGo_no_triple :
    ∀ (l : LC) (n : Nat), hasTripleNl (collapseNlGo n l) = false := by
  intro l
  induction l with
  | nil => intro n; exact emitNl_no_triple n
  | cons c cs ih =>
    intro n
    by_cases hc : c = '\n'
    · subst hc
      rw [show collapseNlGo n ('\n' :: cs) = collapseNlGo (n + 1) cs from by
        simp [collapseNlGo]]
      exact ih (n + 1)
    · rw [show collapseNlGo n (c :: cs) = emitNl n ++ c :: collapseNlGo 0 cs from by
        simp [collapseNlGo, hc]]
      rw [hasTripleNl_emit_cons n c hc]
      exact ih 0

theorem collapseNlGo_id : ∀ (l : LC) (n : Nat), n ≤ 2 →
    hasTripleNl (List.replicate n '\n' ++ l) = false →
    collapseNlGo n l = List.replicate n '\n' ++ l := by
  intro l
  induction l with
  | nil =>
    intro n hn _
    show emitNl n = _
    rw [emitNl, min_eq_left hn]
    simp
  | cons c cs ih =>
    intro n hn h
    by_cases hc : c = '\n'
    · subst hc
      have hrw : List.replicate n '\n' ++ '\n' :: cs =
          List.replicate (n + 1) '\n' ++ cs := by
        rw [List.replicate_succ']
        simp
      rw [show collapseNlGo n ('\n' :: cs) = collapseNlGo (n + 1) cs from by
        simp [collapseNlGo]]
      have hn2 : n + 1 ≤ 2 := by
        by_contra hgt
        have hn3 : n = 2 := by omega
        subst hn3
        simp [List.replicate, hasTripleNl] at h
      rw [hrw] at h
      rw [ih (n + 1) hn2 h, ← hrw]
    · rw [show collapseNlGo n (c :: cs) = emitNl n ++ c :: collapseNlGo 0 cs from by
        simp [collapseNlGo, hc]]
      have hcs : hasTripleNl cs = false := by
        apply hasTripleNl_within _ h
        exact ((List.suffix_cons c cs).trans (List.suffix_append _ _)).isInfix
      rw [ih 0 (by omega) (by simpa using hcs), emitNl, min_eq_left hn]
      simp

theorem collapseNl_id {l : LC} (h : hasTripleNl l = false) : collapseNl l = l := by
  have h2 := collapseNlGo_id l 0 (by omega) (by simpa using h)
  simpa [collapseNl] using h2

theorem collapseNlGo_mem : ∀ (l : LC) (n : Nat) (c : Char),
    c ∈ collapseNlGo n l → c = '\n' ∨ c ∈ l := by
  intro l
  induction l with
  | nil =>
    intro n c hc
    left
    have h2 : c ∈ emitNl n := hc
    rw [emitNl] at h2
    exact List.eq_of_mem_replicate h2
  | cons a cs ih =>
    intro n c hc
    by_cases ha : a = '\n'
    · subst ha
      rw [show collapseNlGo n ('\n' :: cs) = collapseNlGo (n + 1) cs from by
        simp [collapseNlGo]] at hc
      rcases ih (n + 1) c hc with h | h
      · exact Or.inl h
      · exact Or.inr (List.mem_cons_of_mem _ h)
    · rw [show collapseNlGo n (a :: cs) = emitNl n ++ a :: collapseNlGo 0 cs from by
        simp [collapseNlGo, ha]] at hc
      rcases List.mem_append.mp hc with h | h
      · left
        rw [emitNl] at h
        exact List.eq_of_mem_replicate h
      · rcases List.mem_cons.mp h with h2 | h2
        · subst h2
          exact Or.inr (List.mem_cons_self _ _)
        · rcases ih 0 c h2 with h3 | h3
          · exact Or.inl h3
          · exact Or.inr (List.mem_cons_of_mem _ h3)

/-! Splitting on '\n' and rejoining. -/

/-- Splitting on '\n' only (what `pySplitlines` reduces to once every other
    line boundary has been normalized away), keeping a trailing empty
    piece. -/
def splitOnNl : LC → List LC
  | [] => [[]]
  | c :: cs =>
    if c = '\n' then [] :: splitOnNl cs
    else
      match splitOnNl cs with
      | [] => [[c]]
      | p :: ps => (c :: p) :: ps

theorem splitOnNl_ne_nil (l : LC) : splitOnNl l ≠ [] := by
  cases l with
  | nil => simp [splitOnNl]
  | cons c cs =>
    by_cases hc : c = '\n'
    · simp [splitOnNl, hc]
    · rw [show splitOnNl (c :: cs) =
          (match splitOnNl cs with
           | [] => [[c]]
           | p :: ps => (c :: p) :: ps) from by simp [splitOnNl, hc]]
      cases splitOnNl cs <;> simp

theorem joinNl_splitOnNl : ∀ l : LC, joinNl (splitOnNl l) = l := by
  intro l
  induction l with
  | nil => rfl
  | cons c cs ih =>
    by_cases hc : c = '\n'
    · subst hc
      rw [show splitOnNl ('\n' :: cs) = [] :: splitOnNl cs from by simp [splitOnNl]]
      cases hps : splitOnNl cs with
      | nil => exact absurd hps (splitOnNl_ne_nil cs)
      | cons p ps =>
        rw [show joinNl ([] :: p :: ps) = '\n' :: joinNl (p :: ps) from rfl, ← hps, ih]
    · rw [show splitOnNl (c :: cs) =
          (match splitOnNl cs with
           | [] => [[c]]
           | p :: ps => (c :: p) :: ps) from by simp [splitOnNl, hc]]
      cases hps : splitOnNl cs with
      | nil => exact absurd hps (splitOnNl_ne_nil cs)
      | cons p ps =>
        cases ps with
        | nil =>
          have h1 : joinNl [p] = cs := by rw [← hps, ih]
          have h2 : p = cs := h1
          simp [joinNl, h2]
        | cons p2 ps2 =>
          have h1 : joinNl ((c :: p) :: p2 :: ps2) = c :: joinNl (p :: p2 :: ps2) := by
            simp [joinNl]
          rw [h1, ← hps, ih]

theorem splitOnNl_pieces_no_nl : ∀ l : LC, ∀ p ∈ splitOnNl l, '\n' ∉ p := by
  intro l
  induction l with
  | nil => intro p hp; simp [splitOnNl] at hp; simp [hp]
  | cons c cs ih =>
    intro p hp
    by_cases hc : c = '\n'
    · rw [show splitOnNl (c :: cs) = [] :: splitOnNl cs from by simp [splitOnNl, hc]] at hp
      rcases List.mem_cons.mp hp with rfl | hp2
      · simp
      · exact ih p hp2
    · rw [show splitOnNl (c :: cs) =
          (match splitOnNl cs with
           | [] => [[c]]
           | p :: ps => (c :: p) :: ps) from by simp [splitOnNl, hc]] at hp
      cases hps : splitOnNl cs with
      | nil => exact absurd hps (splitOnNl_ne_nil cs)
      | cons q qs =>
        rw [hps] at hp
        rcases List.mem_cons.mp hp with rfl | hp2
        · intro hmem
          rcases List.mem_cons.mp hmem with h | h
          · exact hc h.symm
          · exact ih q (by rw [hps]; simp) h
        · exact ih p (by rw [hps]; exact List.mem_cons_of_mem q hp2)

theorem splitOnNl_no_nl {l : LC} (h : '\n' ∉ l) : splitOnNl l = [l] := by
  induction l with
  | nil => rfl
  | cons c cs ih =>
    have hc : ¬c = '\n' := fun he => h (he ▸ List.mem_cons_self c cs)
    rw [show splitOnNl (c :: cs) =
        (match splitOnNl cs with
         | [] => [[c]]
         | p :: ps => (c :: p) :: ps) from by simp [splitOnNl, hc]]
    rw [ih (fun hm => h (List.mem_cons_of_mem c hm))]

theorem splitOnNl_append_nl {p0 : LC} (rest : LC) (hp0 : '\n' ∉ p0) :
    splitOnNl (p0 ++ '\n' :: rest) = p0 :: splitOnNl rest := by
  induction p0 with
  | nil => simp [splitOnNl]
  | cons a p ih =>
    have ha : ¬a = '\n' := fun he => hp0 (he ▸ List.mem_cons_self a p)
    rw [List.cons_append]
    rw [show splitOnNl (a :: (p ++ '\n' :: rest)) =
        (match splitOnNl (p ++ '\n' :: rest) with
         | [] => [[a]]
         | q :: qs => (a :: q) :: qs) from by simp [splitOnNl, ha]]
    rw [ih (fun hm => hp0 (List.mem_cons_of_mem a hm))]

theorem splitlinesGo_eq_splitOnNl :
    ∀ l : LC, (∀ c ∈ l, isLineBoundary c = true → c = '\n') →
      splitlinesGo l = splitOnNl l := by
  intro l
  induction l with
  | nil => intro _; rfl
  | cons c cs ih =>
    intro hb
    have hbcs : ∀ x ∈ cs, isLineBoundary x = true → x = '\n' :=
      fun x hx => hb x (List.mem_cons_of_mem c hx)
    cases cs with
    | nil =>
      by_cases hbc : isLineBoundary c = true
      · have hc : c = '\n' := hb c (List.mem_cons_self c []) hbc
        subst hc
        rfl
      · have hcn : ¬c = '\n' := by
          intro he
          subst he
          exact hbc (by decide)
        rw [show splitlinesGo [c] = [[c]] from by simp [splitlinesGo, hbc]]
        rw [show splitOnNl [c] =
            (match splitOnNl [] with
             | [] => [[c]]
             | p :: ps => (c :: p) :: ps) from by simp [splitOnNl, hcn]]
        rfl
    | cons d ds =>
      have hcr : ¬c = '\r' := by
        intro he
        have := hb c (List.mem_cons_self c (d :: ds)) (by rw [he]; decide)
        rw [he] at this
        exact absurd this (by decide)
      have hfirst : (c = '\r' && d = '\n') = false := by
        simp [hcr]
      by_cases hbc : isLineBoundary c = true
      · have hc : c = '\n' := hb c (List.mem_cons_self c (d :: ds)) hbc
        subst hc
        rw [show splitlinesGo ('\n' :: d :: ds) = [] :: splitlinesGo (d :: ds) from by
          simp [splitlinesGo, show isLineBoundary '\n' = true from by decide]]
        rw [show splitOnNl ('\n' :: d :: ds) = [] :: splitOnNl (d :: ds) from by
          simp [splitOnNl]]
        rw [ih hbcs]
      · have hcn : ¬c = '\n' := by
          intro he
          subst he
          exact hbc (by decide)
        rw [show splitlinesGo (c :: d :: ds) =
            (match splitlinesGo (d :: ds) with
             | [] => [[c]]
             | p :: ps => (c :: p) :: ps) from by
          simp [splitlinesGo, hfirst, hbc]]
        rw [show splitOnNl (c :: d :: ds) =
            (match splitOnNl (d :: ds) with
             | [] => [[c]]
             | p :: ps => (c :: p) :: ps) from by simp [splitOnNl, hcn]]
        rw [ih hbcs]

theorem splitlinesGo_ne_nil : ∀ l : LC, splitlinesGo l ≠ [] := by
  intro l
  match l with
  | [] => simp [splitlinesGo]
  | [c] =>
    by_cases hb : isLineBoundary c = true <;> simp [splitlinesGo, hb]
  | c :: d :: cs =>
    by_cases h1 : (c = '\r' && d = '\n') = true
    · simp only [splitlinesGo, h1, if_true]
      simp
    · rw [show splitlinesGo (c :: d :: cs) =
          (if isLineBoundary c then [] :: splitlinesGo (d :: cs)
           else
             match splitlinesGo (d :: cs) with
             | [] => [[c]]
             | p :: ps => (c :: p) :: ps) from by
        simp only [splitlinesGo]
        rw [if_neg (by simpa using h1)]]
      by_cases hb : isLineBoundary c = true
      · simp [hb]
      · rw [if_neg hb]
        cases splitlinesGo (d :: cs) <;> simp

theorem splitlinesGo_pieces_no_boundary :
    ∀ l : LC, ∀ p ∈ splitlinesGo l, ∀ c ∈ p, isLineBoundary c = false := by
  intro l
  induction l using splitlinesGo.induct with
  | case1 =>
    intro p hp c hc
    simp [splitlinesGo] at hp
    subst hp
    simp at hc
  | case2 c hb =>
    intro p hp x hx
    simp [splitlinesGo, hb] at hp
    rcases hp with rfl | rfl <;> simp at hx
  | case3 c hb =>
    intro p hp x hx
    simp [splitlinesGo, hb] at hp
    subst hp
    simp at hx
    subst hx
    cases h2 : isLineBoundary x with
    | true => exact absurd h2 hb
    | false => rfl
  | case4 c d cs hcd ih =>
    intro p hp x hx
    rw [show splitlinesGo (c :: d :: cs) = [] :: splitlinesGo cs from by
      simp only [splitlinesGo, hcd, if_true]] at hp
    rcases List.mem_cons.mp hp with rfl | hp2
    · simp at hx
    · exact ih p hp2 x hx
  | case5 c d cs hcd hb ih =>
    intro p hp x hx
    rw [show splitlinesGo (c :: d :: cs) = [] :: splitlinesGo (d :: cs) from by
      simp only [splitlinesGo]
      rw [if_neg hcd, if_pos hb]] at hp
    rcases List.mem_cons.mp hp with rfl | hp2
    · simp at hx
    · exact ih p hp2 x hx
  | case6 c d cs hcd hb hnil ih =>
    exact absurd hnil (splitlinesGo_ne_nil (d :: cs))
  | case7 c d cs hcd hb p0 ps hps ih =>
    intro p hp x hx
    rw [show splitlinesGo (c :: d :: cs) = (c :: p0) :: ps from by
      simp only [splitlinesGo]
      rw [if_neg hcd, if_neg hb, hps]] at hp
    rcases List.mem_cons.mp hp with rfl | hp2
    · rcases List.mem_cons.mp hx with rfl | hx2
      · cases h2 : isLineBoundary x with
        | true => exact absurd h2 hb
        | false => rfl
      · exact ih p0 (by rw [hps]; simp) x hx2
    · exact ih p (by rw [hps]; exact List.mem_cons_of_mem p0 hp2) x hx

theorem splitlinesGo_head_prefix :
    ∀ (l : LC) (p : LC) (ps : List LC), splitlinesGo l = p :: ps → p <+: l := by
  intro l
  induction l using splitlinesGo.induct with
  | case1 =>
    intro p ps h
    simp [splitlinesGo] at h
    rw [h.1]
  | case2 c hb =>
    intro p ps h
    simp [splitlinesGo, hb] at h
    rw [h.1]
    exact ⟨[c], rfl⟩
  | case3 c hb =>
    intro p ps h
    simp [splitlinesGo, hb] at h
    rw [h.1]
  | case4 c d cs hcd ih =>
    intro p ps h
    rw [show splitlinesGo (c :: d :: cs) = [] :: splitlinesGo cs from by
      simp only [splitlinesGo, hcd, if_true]] at h
    injection h with h1 h2
    rw [← h1]
    exact List.nil_prefix
  | case5 c d cs hcd hb ih =>
    intro p ps h
    rw [show splitlinesGo (c :: d :: cs) = [] :: splitlinesGo (d :: cs) from by
      simp only [splitlinesGo]
      rw [if_neg hcd, if_pos hb]] at h
    injection h with h1 h2
    rw [← h1]
    exact List.nil_prefix
  | case6 c d cs hcd hb hnil ih =>
    exact absurd hnil (splitlinesGo_ne_nil (d :: cs))
  | case7 c d cs hcd hb p0 ps0 hps ih =>
    intro p ps h
    rw [show splitlinesGo (c :: d :: cs) = (c :: p0) :: ps0 from by
      simp only [splitlinesGo]
      rw [if_neg hcd, if_neg hb, hps]] at h
    injection h with h1 h2
    rw [← h1]
    rcases ih p0 ps0 hps with ⟨t, ht⟩
    exact ⟨t, by rw [List.cons_append, ht]⟩

theorem splitlinesGo_pieces_within :
    ∀ l : LC, ∀ p ∈ splitlinesGo l, p <:+: l := by
  intro l
  induction l using splitlinesGo.induct with
  | case1 =>
    intro p hp
    simp [splitlinesGo] at hp
    rw [hp]
  | case2 c hb =>
    intro p hp
    simp [splitlinesGo, hb] at hp
    rcases hp with rfl | rfl <;> exact List.nil_infix
  | case3 c hb =>
    intro p hp
    simp [splitlinesGo, hb] at hp
    subst hp
    exact List.infix_refl _
  | case4 c d cs hcd ih =>
    intro p hp
    rw [show splitlinesGo (c :: d :: cs) = [] :: splitlinesGo cs from by
      simp only [splitlinesGo, hcd, if_true]] at hp
    rcases List.mem_cons.mp hp with rfl | hp2
    · exact List.nil_infix
    · exact (ih p hp2).trans
        (((List.suffix_cons d cs).trans (List.suffix_cons c (d :: cs))).isInfix)
  | case5 c d cs hcd hb ih =>
    intro p hp
    rw [show splitlinesGo (c :: d :: cs) = [] :: splitlinesGo (d :: cs) from by
      simp only [splitlinesGo]
      rw [if_neg hcd, if_pos hb]] at hp
    rcases List.mem_cons.mp hp with rfl | hp2
    · exact List.nil_infix
    · exact (ih p hp2).trans (List.suffix_cons c (d :: cs)).isInfix
  | case6 c d cs hcd hb hnil ih =>
    exact absurd hnil (splitlinesGo_ne_nil (d :: cs))
  | case7 c d cs hcd hb p0 ps0 hps ih =>
    intro p hp
    rw [show splitlinesGo (c :: d :: cs) = (c :: p0) :: ps0 from by
      simp only [splitlinesGo]
      rw [if_neg hcd, if_neg hb, hps]] at hp
    rcases List.mem_cons.mp hp with rfl | hp2
    · rcases splitlinesGo_head_prefix (d :: cs) p0 ps0 hps with ⟨t, ht⟩
      exact List.IsPrefix.isInfix ⟨t, by rw [List.cons_append, ht]⟩
    · exact (ih p (by rw [hps]; exact List.mem_cons_of_mem p0 hp2)).trans
        (List.suffix_cons c (d :: cs)).isInfix

theorem pySplitlines_pieces_no_boundary (l : LC) :
    ∀ p ∈ pySplitlines l, ∀ c ∈ p, isLineBoundary c = false := by
  intro p hp
  have hp2 : p ∈ splitlinesGo l := by
    rw [show pySplitlines l =
        (if (splitlinesGo l).getLast? = some [] then (splitlinesGo l).dropLast
         else splitlinesGo l) from rfl] at hp
    split at hp
    · exact (List.dropLast_sublist _).mem hp
    · exact hp
  exact splitlinesGo_pieces_no_boundary l p hp2

theorem pySplitlines_pieces_within (l : LC) : ∀ p ∈ pySplitlines l, p <:+: l := by
  intro p hp
  have hp2 : p ∈ splitlinesGo l := by
    rw [show pySplitlines l =
        (if (splitlinesGo l).getLast? = some [] then (splitlinesGo l).dropLast
         else splitlinesGo l) from rfl] at hp
    split at hp
    · exact (List.dropLast_sublist _).mem hp
    · exact hp
  exact splitlinesGo_pieces_within l p hp2

theorem splitOnNl_getLast_ne_nil :
    ∀ l : LC, l ≠ [] → l.getLast? ≠ some '\n' →
      (splitOnNl l).getLast? ≠ some [] := by
  intro l
  induction l with
  | nil => intro h; exact absurd rfl h
  | cons c cs ih =>
    intro _ hlast
    cases cs with
    | nil =>
      have hc : ¬c = '\n' := by
        intro he
        exact hlast (by rw [he]; rfl)
      rw [show splitOnNl [c] =
          (match splitOnNl ([] : LC) with
           | [] => [[c]]
           | p :: ps => (c :: p) :: ps) from by simp [splitOnNl, hc]]
      simp [splitOnNl]
    | cons d ds =>
      have hlast2 : (d :: ds).getLast? ≠ some '\n' := by
        rwa [List.getLast?_cons_cons] at hlast
      have htail := ih (by simp) hlast2
      by_cases hc : c = '\n'
      · rw [show splitOnNl (c :: d :: ds) = [] :: splitOnNl (d :: ds) from by
          simp [splitOnNl, hc]]
        cases hps : splitOnNl (d :: ds) with
        | nil => exact absurd hps (splitOnNl_ne_nil _)
        | cons q qs =>
          rw [List.getLast?_cons_cons]
          rw [hps] at htail
          exact htail
      · rw [show splitOnNl (c :: d :: ds) =
            (match splitOnNl (d :: ds) with
             | [] => [[c]]
             | p :: ps => (c :: p) :: ps) from by simp [splitOnNl, hc]]
        cases hps : splitOnNl (d :: ds) with
        | nil => exact absurd hps (splitOnNl_ne_nil _)
        | cons q qs =>
          rw [hps] at htail
          cases qs with
          | nil => simpa using htail
          | cons q2 qs2 =>
            rw [List.getLast?_cons_cons]
            rw [List.getLast?_cons_cons] at htail
            exact htail

theorem pySplitlines_eq_splitOnNl {l : LC}
    (hb : ∀ c ∈ l, isLineBoundary c = true → c = '\n')
    (hlast : l.getLast? ≠ some '\n') (hne : l ≠ []) :
    pySplitlines l = splitOnNl l := by
  have h1 := splitOnNl_getLast_ne_nil l hne hlast
  unfold pySplitlines
  rw [splitlinesGo_eq_splitOnNl l hb]
  rw [if_neg h1]

theorem nonws_of_otherWs {c : Char} (h1 : otherWs c = false) (h2 : ¬c = '\n') :
    pyIsSpace c = false := by
  cases h3 : pyIsSpace c with
  | true => rw [otherWs, h3] at h1; simp [h2] at h1
  | false => rfl

theorem otherWs_of_edge_left {x : Char} (h : lineEdgePred x '\n' = true) :
    otherWs x = false := by
  rw [lineEdgePred] at h
  rcases (Bool.and_eq_true _ _).mp h with ⟨-, h2⟩
  cases h3 : otherWs x with
  | true => rw [h3] at h2; simp at h2
  | false => rfl

theorem otherWs_of_edge_right {y : Char} (h : lineEdgePred '\n' y = true) :
    otherWs y = false := by
  rw [lineEdgePred] at h
  rcases (Bool.and_eq_true _ _).mp h with ⟨h1, -⟩
  cases h3 : otherWs y with
  | true => rw [h3] at h1; simp at h1
  | false => rfl

theorem head_dropWhile_nl {l : LC} (h : '\n' ∈ l) :
    ∃ rest, l.dropWhile (fun c => !(c = '\n')) = '\n' :: rest := by
  induction l with
  | nil => simp at h
  | cons a l ih =>
    by_cases ha : a = '\n'
    · subst ha
      exact ⟨l, by simp [List.dropWhile]⟩
    · have h2 : '\n' ∈ l := by
        rcases List.mem_cons.mp h with he | hm
        · exact absurd he.symm ha
        · exact hm
      rcases ih h2 with ⟨rest, hrest⟩
      refine ⟨rest, ?_⟩
      rw [List.dropWhile_cons, if_pos (by simp [ha]), hrest]

theorem takeWhile_no_nl (l : LC) : '\n' ∉ l.takeWhile (fun c => !(c = '\n')) := by
  intro hm
  have := List.mem_takeWhile_imp hm
  simp at this

/-- Under the line-edge invariant, with no leading or trailing non-newline
    whitespace, every line of a text is stripped. -/
theorem piecesStripped (z : LC) (hch : chainB lineEdgePred z = true)
    (hh : ∀ c ∈ z.head?, otherWs c = false)
    (hl : ∀ c ∈ z.getLast?, otherWs c = false) :
    ∀ p ∈ splitOnNl z, pyStrip p = p := by
  by_cases hn : '\n' ∈ z
  · rcases head_dropWhile_nl hn with ⟨rest, hrest⟩
    have hz2 : z = z.takeWhile (fun c => !(c = '\n')) ++ '\n' :: rest := by
      conv_lhs => rw [← List.takeWhile_append_dropWhile (fun c => !(c = '\n')) z]
      rw [hrest]
    set p0 := z.takeWhile (fun c => !(c = '\n')) with hp0def
    have hp0nl : '\n' ∉ p0 := takeWhile_no_nl z
    have hch2 := hz2 ▸ hch
    rcases (chainB_append lineEdgePred p0 ('\n' :: rest)).mp hch2 with
      ⟨hchp0, hchnl, hbound⟩
    have hchnl2 := chainB_cons lineEdgePred '\n' rest ▸ hchnl
    have hchrest : chainB lineEdgePred rest = true :=
      ((Bool.and_eq_true _ _).mp hchnl2).2
    have hpairnl : ∀ y ∈ rest.head?, lineEdgePred '\n' y = true := by
      intro y hy
      have h3 := ((Bool.and_eq_true _ _).mp hchnl2).1
      cases hr : rest.head? with
      | none => rw [hr] at hy; simp at hy
      | some b =>
        rw [hr] at hy h3
        simp only [Option.mem_def, Option.some.injEq] at hy
        subst hy
        exact h3
    rw [hz2, splitOnNl_append_nl rest hp0nl]
    intro p hp
    rcases List.mem_cons.mp hp with rfl | hp2
    · apply pyStrip_eq_self
      · intro c hc
        have hhz : z.head? = some c := by
          rw [hz2]
          cases hp0e : p0 with
          | nil => rw [hp0e] at hc; simp at hc
          | cons a p0t =>
            rw [hp0e] at hc
            rw [List.cons_append, List.head?_cons]
            rw [List.head?_cons] at hc
            exact hc
        have hcnl : ¬c = '\n' := by
          intro he
          subst he
          exact hp0nl (List.mem_of_mem_head? hc)
        exact nonws_of_otherWs (hh c hhz) hcnl
      · intro c hc
        have hcnl : ¬c = '\n' := by
          intro he
          subst he
          exact hp0nl (List.mem_of_mem_getLast? hc)
        have hedge : lineEdgePred c '\n' = true :=
          hbound c hc '\n' (by simp)
        exact nonws_of_otherWs (otherWs_of_edge_left hedge) hcnl
    · have hlen : rest.length < z.length := by
        conv_rhs => rw [hz2]
        simp only [List.length_append, List.length_cons]
        omega
      apply piecesStripped rest hchrest
      · intro c hc
        exact otherWs_of_edge_right (hpairnl c hc)
      · intro c hc
        cases hre : rest with
        | nil => rw [hre] at hc; simp at hc
        | cons r rs =>
          apply hl
          rw [hz2, List.getLast?_append_of_ne_nil p0 (by simp),
            show ('\n' :: rest).getLast? = rest.getLast? from by
              rw [hre]; exact List.getLast?_cons_cons ..]
          exact hc
      · exact hp2
  · rw [splitOnNl_no_nl hn]
    intro p hp
    simp only [List.mem_singleton] at hp
    subst hp
    apply pyStrip_eq_self
    · intro c hc
      have hcnl : ¬c = '\n' := by
        intro he
        exact hn (he ▸ List.mem_of_mem_head? hc)
      exact nonws_of_otherWs (hh c hc) hcnl
    · intro c hc
      have hcnl : ¬c = '\n' := by
        intro he
        exact hn (he ▸ List.mem_of_mem_getLast? hc)
      exact nonws_of_otherWs (hl c hc) hcnl
termination_by z.length
decreasing_by
  exact hlen

theorem chainB_lineEdge_of_no_nl {q : LC} (h : '\n' ∉ q) :
    chainB lineEdgePred q = true := by
  induction q with
  | nil => rfl
  | cons a rest ih =>
    rw [chainB_cons]
    have hrest : '\n' ∉ rest := fun hm => h (List.mem_cons_of_mem a hm)
    refine (Bool.and_eq_true _ _).mpr ⟨?_, ih hrest⟩
    cases hr : rest.head? with
    | none => rfl
    | some b =>
      have ha : ¬a = '\n' := fun he => h (he ▸ List.mem_cons_self a rest)
      have hb : ¬b = '\n' := fun he => hrest (he ▸ List.mem_of_mem_head? hr)
      simp [lineEdgePred, ha, hb]

theorem joinNl_head_otherWs :
    ∀ qs : List LC, (∀ q ∈ qs, pyStrip q = q) →
      ∀ y ∈ (joinNl qs).head?, otherWs y = false := by
  intro qs
  induction qs with
  | nil => intro _ y hy; simp [joinNl] at hy
  | cons q qs ih =>
    intro hq y hy
    cases qs with
    | nil =>
      have hstr : pyStrip q = q := hq q (by simp)
      have := pyStrip_head q
      rw [hstr] at this
      have hws : pyIsSpace y = false := this y (by
        rw [show joinNl [q] = q from rfl] at hy
        exact hy)
      rw [otherWs, hws]
      rfl
    | cons q2 qs2 =>
      rw [show joinNl (q :: q2 :: qs2) = q ++ '\n' :: joinNl (q2 :: qs2) from rfl] at hy
      cases hqe : q with
      | nil =>
        rw [hqe] at hy
        simp only [List.nil_append, List.head?_cons] at hy
        simp only [Option.mem_def, Option.some.injEq] at hy
        subst hy
        simp [otherWs]
      | cons a qt =>
        rw [hqe, List.cons_append, List.head?_cons] at hy
        have hya : a = y := Option.some.inj hy
        have hstr : pyStrip q = q := hq q (by simp)
        have h2 := pyStrip_head q
        rw [hstr, hqe] at h2
        have hws : pyIsSpace y = false := by
          rw [← hya]
          exact h2 a (by simp)
        simp only [otherWs]
        rw [hws]
        rfl

theorem chainB_joinNl_generic {R : Char → Char → Bool}
    (hR : ∀ a, R a '\n' = true ∧ R '\n' a = true) :
    ∀ qs : List LC, (∀ q ∈ qs, chainB R q = true) →
      chainB R (joinNl qs) = true := by
  intro qs
  induction qs with
  | nil => intro _; rfl
  | cons q qs ih =>
    intro hq
    cases qs with
    | nil => exact hq q (by simp)
    | cons q2 qs2 =>
      rw [show joinNl (q :: q2 :: qs2) = q ++ '\n' :: joinNl (q2 :: qs2) from rfl]
      apply (chainB_append R q ('\n' :: joinNl (q2 :: qs2))).mpr
      refine ⟨hq q (by simp), ?_, ?_⟩
      · rw [chainB_cons]
        refine (Bool.and_eq_true _ _).mpr
          ⟨?_, ih (fun x hx => hq x (List.mem_cons_of_mem q hx))⟩
        cases hh : (joinNl (q2 :: qs2)).head? with
        | none => rfl
        | some b => exact (hR b).2
      · intro x _ y hy
        simp only [List.head?_cons, Option.mem_def, Option.some.injEq] at hy
        subst hy
        exact (hR x).1

theorem chainB_joinNl_lineEdge :
    ∀ qs : List LC, (∀ q ∈ qs, pyStrip q = q ∧ '\n' ∉ q) →
      chainB lineEdgePred (joinNl qs) = true := by
  intro qs
  induction qs with
  | nil => intro _; rfl
  | cons q qs ih =>
    intro hq
    cases qs with
    | nil => exact chainB_lineEdge_of_no_nl (hq q (by simp)).2
    | cons q2 qs2 =>
      rw [show joinNl (q :: q2 :: qs2) = q ++ '\n' :: joinNl (q2 :: qs2) from rfl]
      apply (chainB_append lineEdgePred q ('\n' :: joinNl (q2 :: qs2))).mpr
      refine ⟨chainB_lineEdge_of_no_nl (hq q (by simp)).2, ?_, ?_⟩
      · rw [chainB_cons]
        refine (Bool.and_eq_true _ _).mpr
          ⟨?_, ih (fun x hx => hq x (List.mem_cons_of_mem q hx))⟩
        cases hh : (joinNl (q2 :: qs2)).head? with
        | none => rfl
        | some b =>
          have hb : otherWs b = false :=
            joinNl_head_otherWs (q2 :: qs2)
              (fun x hx => (hq x (List.mem_cons_of_mem q hx)).1) b hh
          simp only [lineEdgePred]
          rw [hb, show otherWs '\n' = false from by decide]
          simp
      · intro x hx y hy
        simp only [List.head?_cons, Option.mem_def, Option.some.injEq] at hy
        subst hy
        have hstr := (hq q (by simp)).1
        have h2 := pyStrip_getLast q
        rw [hstr] at h2
        have hws : pyIsSpace x = false := h2 x hx
        simp only [lineEdgePred]
        rw [show otherWs x = false from by simp only [otherWs]; rw [hws]; rfl,
          show otherWs '\n' = false from by decide]
        simp

theorem joinNl_mem : ∀ (qs : List LC) (c : Char),
    c ∈ joinNl qs → c = '\n' ∨ ∃ q ∈ qs, c ∈ q := by
  intro qs
  induction qs with
  | nil => intro c hc; simp [joinNl] at hc
  | cons q qs ih =>
    intro c hc
    cases qs with
    | nil =>
      right
      exact ⟨q, by simp, hc⟩
    | cons q2 qs2 =>
      rw [show joinNl (q :: q2 :: qs2) = q ++ '\n' :: joinNl (q2 :: qs2) from rfl] at hc
      rcases List.mem_append.mp hc with h | h
      · exact Or.inr ⟨q, by simp, h⟩
      · rcases List.mem_cons.mp h with rfl | h2
        · exact Or.inl rfl
        · rcases ih c h2 with h3 | ⟨x, hx, hcx⟩
          · exact Or.inl h3
          · exact Or.inr ⟨x, List.mem_cons_of_mem q hx, hcx⟩

/-! Assembly: the line-level stage of both normalizers is idempotent. -/

/-- The shared second half of both normalizers: strip every line, rejoin,
    collapse newline runs, strip the whole text. -/
def stageB (x : LC) : LC :=
  pyStrip (collapseNl (joinNl ((pySplitlines x).map pyStrip)))

theorem otherWs_of_nonws {c : Char} (h : pyIsSpace c = false) : otherWs c = false := by
  simp only [otherWs]
  rw [h]
  rfl

theorem map_id_of_mem {α : Type} {f : α → α} :
    ∀ l : List α, (∀ p ∈ l, f p = p) → l.map f = l := by
  intro l
  induction l with
  | nil => intro _; rfl
  | cons a l ih =>
    intro h
    rw [List.map_cons, h a (by simp), ih (fun p hp => h p (List.mem_cons_of_mem a hp))]

theorem chainB_mono_mem {R S : Char → Char → Bool} :
    ∀ l : LC, (∀ a b, a ∈ l → b ∈ l → R a b = true → S a b = true) →
      chainB R l = true → chainB S l = true := by
  intro l
  induction l with
  | nil => intro _ _; rfl
  | cons a l ih =>
    intro hmem hc
    rw [chainB_cons] at hc ⊢
    rcases (Bool.and_eq_true _ _).mp hc with ⟨hp, hrest⟩
    refine (Bool.and_eq_true _ _).mpr
      ⟨?_, ih (fun x y hx hy => hmem x y (List.mem_cons_of_mem a hx)
        (List.mem_cons_of_mem a hy)) hrest⟩
    cases hh : l.head? with
    | none => rfl
    | some b =>
      rw [hh] at hp
      exact hmem a b (List.mem_cons_self a l)
        (List.mem_cons_of_mem a (List.mem_of_mem_head? hh)) hp

theorem replaceChar_id {a b : Char} {l : LC} (h : a ∉ l) : replaceChar a b l = l := by
  induction l with
  | nil => rfl
  | cons c cs ih =>
    have hca : ¬c = a := fun he => h (he ▸ List.mem_cons_self c cs)
    rw [replaceChar, List.map_cons, if_neg hca]
    have := ih (fun hm => h (List.mem_cons_of_mem c hm))
    rw [replaceChar] at this
    rw [this]

theorem replaceChar_not_mem {a b : Char} (hab : ¬a = b) (l : LC) :
    a ∉ replaceChar a b l := by
  intro hm
  rw [replaceChar] at hm
  rcases List.mem_map.mp hm with ⟨c, _, hc⟩
  by_cases hca : c = a
  · rw [if_pos hca] at hc
    exact hab hc.symm
  · rw [if_neg hca] at hc
    exact hca hc

/-- The four invariants of `stageB`'s output, plus character containment
    and preservation of the no-double-space chain. -/
theorem stageB_facts (y : LC) :
    (∀ c ∈ stageB y, isLineBoundary c = true → c = '\n') ∧
    chainB lineEdgePred (stageB y) = true ∧
    pyStrip (stageB y) = stageB y ∧
    hasTripleNl (stageB y) = false ∧
    (∀ c ∈ stageB y, c = '\n' ∨ c ∈ y) ∧
    (chainB noTwoSpacePred y = true → chainB noTwoSpacePred (stageB y) = true) := by
  have hqs : ∀ q ∈ (pySplitlines y).map pyStrip, pyStrip q = q ∧ '\n' ∉ q := by
    intro q hq
    rcases List.mem_map.mp hq with ⟨q0, hq0, rfl⟩
    refine ⟨pyStrip_idem q0, ?_⟩
    intro hm
    have hb := pySplitlines_pieces_no_boundary y q0 hq0 '\n' (pyStrip_mem hm)
    rw [show isLineBoundary '\n' = true from by decide] at hb
    exact Bool.true_eq_false.mp hb
  have hw := chainB_joinNl_lineEdge ((pySplitlines y).map pyStrip) hqs
  have hv : chainB lineEdgePred (collapseNl (joinNl ((pySplitlines y).map pyStrip))) = true := by
    apply collapseNlGo_chain (by decide)
    simpa using hw
  have hmemv : ∀ c ∈ collapseNl (joinNl ((pySplitlines y).map pyStrip)),
      c = '\n' ∨ ∃ q0 ∈ pySplitlines y, c ∈ q0 := by
    intro c hc
    rcases collapseNlGo_mem _ 0 c hc with h | h
    · exact Or.inl h
    · rcases joinNl_mem _ c h with h2 | ⟨q, hq, hcq⟩
      · exact Or.inl h2
      · rcases List.mem_map.mp hq with ⟨q0, hq0, rfl⟩
        exact Or.inr ⟨q0, hq0, pyStrip_mem hcq⟩
  refine ⟨?_, ?_, pyStrip_idem _, ?_, ?_, ?_⟩
  · intro c hc hbc
    rcases hmemv c (pyStrip_mem hc) with h | ⟨q0, hq0, hcq⟩
    · exact h
    · have := pySplitlines_pieces_no_boundary y q0 hq0 c hcq
      rw [hbc] at this
      exact absurd this (by simp)
  · exact chainB_within (pyStrip_within _) hv
  · exact hasTripleNl_within (pyStrip_within _) (collapseNlGo_no_triple _ 0)
  · intro c hc
    rcases hmemv c (pyStrip_mem hc) with h | ⟨q0, hq0, hcq⟩
    · exact Or.inl h
    · exact Or.inr ((pySplitlines_pieces_within y q0 hq0).mem hcq)
  · intro hy
    apply chainB_within (pyStrip_within _)
    apply collapseNlGo_chain (by decide)
    have hpieces : ∀ q ∈ (pySplitlines y).map pyStrip, chainB noTwoSpacePred q = true := by
      intro q hq
      rcases List.mem_map.mp hq with ⟨q0, hq0, rfl⟩
      exact chainB_within (pyStrip_within q0)
        (chainB_within (pySplitlines_pieces_within y q0 hq0) hy)
    have hj := chainB_joinNl_generic
      (fun a => ⟨by simp [noTwoSpacePred], by simp [noTwoSpacePred]⟩)
      ((pySplitlines y).map pyStrip) hpieces
    simpa using hj

/-- `stageB` is idempotent. -/
theorem stageB_idem (y : LC) : stageB (stageB y) = stageB y := by
  rcases stageB_facts y with ⟨hb1, hb2, hb3, hb4, -, -⟩
  by_cases hz : stageB y = []
  · rw [hz]
    rfl
  · have hlast : (stageB y).getLast? ≠ some '\n' := by
      intro he
      have := pyStrip_getLast (stageB y)
      rw [hb3] at this
      have h2 := this '\n' (by rw [he]; rfl)
      exact absurd h2 (by decide)
    have hsplit : pySplitlines (stageB y) = splitOnNl (stageB y) :=
      pySplitlines_eq_splitOnNl hb1 hlast hz
    have hstripped : ∀ p ∈ splitOnNl (stageB y), pyStrip p = p := by
      apply piecesStripped _ hb2
      · intro c hc
        have := pyStrip_head (stageB y)
        rw [hb3] at this
        exact otherWs_of_nonws (this c hc)
      · intro c hc
        have := pyStrip_getLast (stageB y)
        rw [hb3] at this
        exact otherWs_of_nonws (this c hc)
    show pyStrip (collapseNl (joinNl ((pySplitlines (stageB y)).map pyStrip))) = stageB y
    rw [hsplit, map_id_of_mem _ hstripped, joinNl_splitOnNl, collapseNl_id hb4, hb3]

/-- The character-level first half of `_normalize_text`. -/
def stageA (t : LC) : LC :=
  collapseSpaceTab (replaceChar '\u00a0' ' ' (replaceChar '\t' ' ' t))

/-- The character-level first half of `_normalize_text_preserve_tabs`. -/
def stageAPres (t : LC) : LC := collapseSpaces (replaceChar '\u00a0' ' ' t)

theorem stageA_no_tab (t : LC) : '\t' ∉ stageA t := by
  intro hm
  rcases collapseClassGo_mem isSpaceOrTab _ false '\t' hm with h | ⟨-, h2⟩
  · exact absurd h (by decide)
  · exact absurd h2 (by decide)

theorem stageA_no_nbsp (t : LC) : '\u00a0' ∉ stageA t := by
  intro hm
  rcases collapseClassGo_mem isSpaceOrTab _ false '\u00a0' hm with h | ⟨h1, -⟩
  · exact absurd h (by decide)
  · exact replaceChar_not_mem (by decide) _ h1

theorem stageAPres_no_nbsp (t : LC) : '\u00a0' ∉ stageAPres t := by
  intro hm
  rcases collapseClassGo_mem isSpaceChar _ false '\u00a0' hm with h | ⟨h1, -⟩
  · exact absurd h (by decide)
  · exact replaceChar_not_mem (by decide) _ h1

theorem classPair_to_noTwo {p : Char → Bool} (hp : p ' ' = true) :
    ∀ a b : Char, (!(p a && p b)) = true → noTwoSpacePred a b = true := by
  intro a b h
  simp only [noTwoSpacePred]
  by_cases ha : a = ' '
  · by_cases hb : b = ' '
    · exfalso
      rw [ha, hb, hp] at h
      simp at h
    · simp [hb]
  · simp [ha]

theorem stageA_chain (t : LC) : chainB noTwoSpacePred (stageA t) = true :=
  chainB_mono (classPair_to_noTwo (by decide))
    _ (collapseClassGo_chain isSpaceOrTab _ false)

theorem stageAPres_chain (t : LC) : chainB noTwoSpacePred (stageAPres t) = true :=
  chainB_mono (classPair_to_noTwo (by decide))
    _ (collapseClassGo_chain isSpaceChar _ false)

theorem stageA_id_on (z : LC) (ht : '\t' ∉ z) (hn : '\u00a0' ∉ z)
    (hc : chainB noTwoSpacePred z = true) : stageA z = z := by
  have hch : chainB (fun a b => !(isSpaceOrTab a && isSpaceOrTab b)) z = true := by
    apply chainB_mono_mem z ?_ hc
    intro a b ha hb h
    have hta : ¬a = '\t' := fun he => ht (he ▸ ha)
    have htb : ¬b = '\t' := fun he => ht (he ▸ hb)
    simp only [isSpaceOrTab]
    simp only [noTwoSpacePred] at h
    by_cases haa : a = ' ' <;> by_cases hbb : b = ' ' <;>
      simp_all
  have hsp : ∀ c ∈ z, isSpaceOrTab c = true → c = ' ' := by
    intro c hcz hcs
    have hct : ¬c = '\t' := fun he => ht (he ▸ hcz)
    simp only [isSpaceOrTab] at hcs
    rcases Bool.or_eq_true_iff.mp hcs with h | h
    · exact of_decide_eq_true h
    · exact absurd (of_decide_eq_true h) hct
  show collapseSpaceTab (replaceChar '\u00a0' ' ' (replaceChar '\t' ' ' z)) = z
  rw [replaceChar_id ht, replaceChar_id hn]
  exact (collapseClassGo_id isSpaceOrTab z hch hsp).1

theorem stageAPres_id_on (z : LC) (hn : '\u00a0' ∉ z)
    (hc : chainB noTwoSpacePred z = true) : stageAPres z = z := by
  have hch : chainB (fun a b => !(isSpaceChar a && isSpaceChar b)) z = true := by
    apply chainB_mono_mem z ?_ hc
    intro a b _ _ h
    simp only [isSpaceChar]
    simp only [noTwoSpacePred] at h
    exact h
  have hsp : ∀ c ∈ z, isSpaceChar c = true → c = ' ' := by
    intro c _ hcs
    exact of_decide_eq_true hcs
  show collapseSpaces (replaceChar '\u00a0' ' ' z) = z
  rw [replaceChar_id hn]
  exact (collapseClassGo_id isSpaceChar z hch hsp).1

theorem normalize_text_idem (t : LC) :
    normalize_text (normalize_text t) = normalize_text t := by
  have h1 : normalize_text t = stageB (stageA t) := rfl
  rcases stageB_facts (stageA t) with ⟨-, -, -, -, hmem, hchain⟩
  have ht : '\t' ∉ stageB (stageA t) := by
    intro hm
    rcases hmem '\t' hm with h | h
    · exact absurd h (by decide)
    · exact stageA_no_tab t h
  have hn : '\u00a0' ∉ stageB (stageA t) := by
    intro hm
    rcases hmem '\u00a0' hm with h | h
    · exact absurd h (by decide)
    · exact stageA_no_nbsp t h
  show stageB (stageA (stageB (stageA t))) = stageB (stageA t)
  rw [stageA_id_on _ ht hn (hchain (stageA_chain t)), stageB_idem]

theorem normalize_text_preserve_tabs_idem (t : LC) :
    normalize_text_preserve_tabs (normalize_text_preserve_tabs t) =
      normalize_text_preserve_tabs t := by
  rcases stageB_facts (stageAPres t) with ⟨-, -, -, -, hmem, hchain⟩
  have hn : '\u00a0' ∉ stageB (stageAPres t) := by
    intro hm
    rcases hmem '\u00a0' hm with h | h
    · exact absurd h (by decide)
    · exact stageAPres_no_nbsp t h
  show stageB (stageAPres (stageB (stageAPres t))) = stageB (stageAPres t)
  rw [stageAPres_id_on _ hn (hchain (stageAPres_chain t)), stageB_idem]

/-! ### The pipeline never raises: every `pyNth` is in bounds -/

def isOkE {α : Type} : Except String α → Bool
  | .ok _ => true
  | .error _ => false

theorem isOkE_ok {α : Type} (v : α) : isOkE (Except.ok v : Except String α) = true := rfl

theorem pyNth_ok {α : Type} {xs : List α} {i : Nat} (h : i < xs.length) :
    ∃ v, pyNth xs i = Except.ok v := by
  cases hg : xs.get? i with
  | some v => exact ⟨v, by unfold pyNth; rw [hg]⟩
  | none =>
    exfalso
    have := List.get?_eq_none.mp hg
    omega

theorem ok_bind {α β : Type} (v : α) (f : α → Except String β) :
    (Except.ok v >>= f) = f v := rfl

theorem pure_eq_ok {α : Type} (v : α) : (pure v : Except String α) = Except.ok v := rfl

theorem parse_experience_chunk_ok (lines : List LC) (h : lines ≠ []) :
    isOkE (parse_experience_chunk lines) = true := by
  rcases lines with _ | ⟨l0, rest⟩
  · exact absurd rfl h
  simp only [parse_experience_chunk, show pyNth (l0 :: rest) 0 = Except.ok l0 from rfl,
    ok_bind]
  by_cases hcond : (l0.contains '—' && decide (2 ≤ (splitEmDash (pyStrip l0)).length)) = true
  · have hlen : 2 ≤ (splitEmDash (pyStrip l0)).length :=
      of_decide_eq_true ((Bool.and_eq_true _ _).mp hcond).2
    rcases @pyNth_ok _ (splitEmDash (pyStrip l0)) (0) (by omega) with ⟨v0, hv0⟩
    rcases @pyNth_ok _ (splitEmDash (pyStrip l0)) (1) (by omega) with ⟨v1, hv1⟩
    simp only [if_pos hcond, hv0, hv1, ok_bind, pure_eq_ok]
    rfl
  · simp only [if_neg hcond, show pyNth (l0 :: rest) 0 = Except.ok l0 from rfl, ok_bind]
    by_cases hc2 : 2 ≤ (splitWide (pyStrip l0)).length
    · rcases @pyNth_ok _ (splitWide (pyStrip l0)) (0) (by omega) with ⟨v0, hv0⟩
      rcases @pyNth_ok _ (splitWide (pyStrip l0)) (1) (by omega) with ⟨v1, hv1⟩
      simp only [if_pos hc2, hv0, hv1, ok_bind, pure_eq_ok]
      by_cases hl2 : 2 ≤ (l0 :: rest).length
      · rcases @pyNth_ok _ (l0 :: rest) (1) (by omega) with ⟨w1, hw1⟩
        simp only [if_pos hl2, hw1, ok_bind]
        by_cases ht2 : 2 ≤ (splitWide (pyStrip w1)).length
        · rcases @pyNth_ok _ (splitWide (pyStrip w1)) (0) (by omega) with ⟨u0, hu0⟩
          rcases @pyNth_ok _ (splitWide (pyStrip w1)) (1) (by omega) with ⟨u1, hu1⟩
          simp only [if_pos ht2, hu0, hu1, ok_bind, pure_eq_ok]
          rfl
        · simp only [if_neg ht2, pure_eq_ok, ok_bind]
          rfl
      · simp only [if_neg hl2, pure_eq_ok, ok_bind]
        rfl
    · simp only [if_neg hc2, pure_eq_ok, ok_bind]
      by_cases hl2 : 2 ≤ (l0 :: rest).length
      · rcases @pyNth_ok _ (l0 :: rest) (1) (by omega) with ⟨w1, hw1⟩
        simp only [if_pos hl2, hw1, ok_bind]
        by_cases ht2 : 2 ≤ (splitWide (pyStrip w1)).length
        · rcases @pyNth_ok _ (splitWide (pyStrip w1)) (0) (by omega) with ⟨u0, hu0⟩
          rcases @pyNth_ok _ (splitWide (pyStrip w1)) (1) (by omega) with ⟨u1, hu1⟩
          simp only [if_pos ht2, hu0, hu1, ok_bind, pure_eq_ok]
          rfl
        · simp only [if_neg ht2, pure_eq_ok, ok_bind]
          rfl
      · simp only [if_neg hl2, pure_eq_ok, ok_bind]
        rfl

theorem exists_ok_of_isOkE {α : Type} {e : Except String α} (h : isOkE e = true) :
    ∃ v, e = .ok v := by
  cases e with
  | ok v => exact ⟨v, rfl⟩
  | error s => simp [isOkE] at h

theorem isOkE_bind_of {α β : Type} {e : Except String α} {f : α → Except String β}
    (he : isOkE e = true) (hf : ∀ v, isOkE (f v) = true) : isOkE (e >>= f) = true := by
  rcases exists_ok_of_isOkE he with ⟨v, rfl⟩
  rw [ok_bind]
  exact hf v

theorem parse_education_chunk_ok (lines : List LC) (h : lines ≠ []) :
    isOkE (parse_education_chunk lines) = true := by
  rcases lines with _ | ⟨l0, rest⟩
  · exact absurd rfl h
  simp only [parse_education_chunk, show pyNth (l0 :: rest) 0 = Except.ok l0 from rfl,
    ok_bind]
  by_cases hl2 : 2 ≤ (l0 :: rest).length
  · rcases @pyNth_ok _ (l0 :: rest) (1) (by omega) with ⟨w1, hw1⟩
    simp only [if_pos hl2, hw1, ok_bind, pure_eq_ok]
    rfl
  · simp only [if_neg hl2, pure_eq_ok, ok_bind]
    rfl

theorem parse_projects_chunk_ok (lines : List LC) (h : lines ≠ []) :
    isOkE (parse_projects_chunk lines) = true := by
  rcases lines with _ | ⟨l0, rest⟩
  · exact absurd rfl h
  simp only [parse_projects_chunk, show pyNth (l0 :: rest) 0 = Except.ok l0 from rfl,
    ok_bind]
  by_cases hcond : (l0.contains '—' && decide (2 ≤ (splitEmDash (pyStrip l0)).length)) = true
  · have hlen : 2 ≤ (splitEmDash (pyStrip l0)).length :=
      of_decide_eq_true ((Bool.and_eq_true _ _).mp hcond).2
    rcases @pyNth_ok _ (splitEmDash (pyStrip l0)) (0) (by omega) with ⟨v0, hv0⟩
    rcases @pyNth_ok _ (splitEmDash (pyStrip l0)) (1) (by omega) with ⟨v1, hv1⟩
    simp only [if_pos hcond, hv0, hv1, ok_bind, pure_eq_ok]
    rfl
  · simp only [if_neg hcond]
    by_cases hn2 : 2 ≤ (splitWide (pyStrip l0)).length
    · rcases @pyNth_ok _ (splitWide (pyStrip l0)) (0) (by omega) with ⟨v0, hv0⟩
      rcases @pyNth_ok _ (splitWide (pyStrip l0)) (1) (by omega) with ⟨v1, hv1⟩
      simp only [if_pos hn2, hv0, hv1, ok_bind, pure_eq_ok]
      by_cases hl2 : 2 ≤ (l0 :: rest).length
      · rcases @pyNth_ok _ (l0 :: rest) (1) (by omega) with ⟨w1, hw1⟩
        simp only [if_pos hl2, hw1, ok_bind]
        by_cases ht2 : 2 ≤ (splitWide (pyStrip w1)).length
        · rcases @pyNth_ok _ (splitWide (pyStrip w1)) (0) (by omega) with ⟨u0, hu0⟩
          rcases @pyNth_ok _ (splitWide (pyStrip w1)) (1) (by omega) with ⟨u1, hu1⟩
          simp only [if_pos ht2, hu0, hu1, ok_bind, pure_eq_ok]
          rfl
        · simp only [if_neg ht2, pure_eq_ok, ok_bind]
          rfl
      · simp only [if_neg hl2, pure_eq_ok, ok_bind]
        rfl
    · simp only [if_neg hn2, pure_eq_ok, ok_bind]
      by_cases hl2 : 2 ≤ (l0 :: rest).length
      · rcases @pyNth_ok _ (l0 :: rest) (1) (by omega) with ⟨w1, hw1⟩
        simp only [if_pos hl2, hw1, ok_bind]
        by_cases ht2 : 2 ≤ (splitWide (pyStrip w1)).length
        · rcases @pyNth_ok _ (splitWide (pyStrip w1)) (0) (by omega) with ⟨u0, hu0⟩
          rcases @pyNth_ok _ (splitWide (pyStrip w1)) (1) (by omega) with ⟨u1, hu1⟩
          simp only [if_pos ht2, hu0, hu1, ok_bind, pure_eq_ok]
          rfl
        · simp only [if_neg ht2, pure_eq_ok, ok_bind]
          rfl
      · simp only [if_neg hl2, pure_eq_ok, ok_bind]
        rfl

theorem parse_volunteer_chunk_ok (lines : List LC) (h : lines ≠ []) :
    isOkE (parse_volunteer_chunk lines) = true := by
  rcases lines with _ | ⟨l0, rest⟩
  · exact absurd rfl h
  simp only [parse_volunteer_chunk, show pyNth (l0 :: rest) 0 = Except.ok l0 from rfl,
    ok_bind]
  by_cases hn2 : 2 ≤ (splitWide (pyStrip l0)).length
  · rcases @pyNth_ok _ (splitWide (pyStrip l0)) (0) (by omega) with ⟨v0, hv0⟩
    rcases @pyNth_ok _ (splitWide (pyStrip l0)) (1) (by omega) with ⟨v1, hv1⟩
    simp only [if_pos hn2, hv0, hv1, ok_bind, pure_eq_ok]
    by_cases hl2 : 2 ≤ (l0 :: rest).length
    · rcases @pyNth_ok _ (l0 :: rest) (1) (by omega) with ⟨w1, hw1⟩
      simp only [if_pos hl2, hw1, ok_bind]
      by_cases ht2 : 2 ≤ (splitWide (pyStrip w1)).length
      · rcases @pyNth_ok _ (splitWide (pyStrip w1)) (0) (by omega) with ⟨u0, hu0⟩
        rcases @pyNth_ok _ (splitWide (pyStrip w1)) (1) (by omega) with ⟨u1, hu1⟩
        simp only [if_pos ht2, hu0, hu1, ok_bind, pure_eq_ok]
        rfl
      · simp only [if_neg ht2, pure_eq_ok, ok_bind]
        rfl
    · simp only [if_neg hl2, pure_eq_ok, ok_bind]
      rfl
  · simp only [if_neg hn2, pure_eq_ok, ok_bind]
    by_cases hl2 : 2 ≤ (l0 :: rest).length
    · rcases @pyNth_ok _ (l0 :: rest) (1) (by omega) with ⟨w1, hw1⟩
      simp only [if_pos hl2, hw1, ok_bind]
      by_cases ht2 : 2 ≤ (splitWide (pyStrip w1)).length
      · rcases @pyNth_ok _ (splitWide (pyStrip w1)) (0) (by omega) with ⟨u0, hu0⟩
        rcases @pyNth_ok _ (splitWide (pyStrip w1)) (1) (by omega) with ⟨u1, hu1⟩
        simp only [if_pos ht2, hu0, hu1, ok_bind, pure_eq_ok]
        rfl
      · simp only [if_neg ht2, pure_eq_ok, ok_bind]
        rfl
    · simp only [if_neg hl2, pure_eq_ok, ok_bind]
      rfl

theorem splitColonOnceGo_cons_ne (acc : LC) (c : Char) (cs : LC) (hc : c ≠ ':') :
    splitColonOnceGo acc (c :: cs) = splitColonOnceGo (c :: acc) cs := by
  rw [splitColonOnceGo.eq_def]
  split
  · rename_i h
    cases h
  · rename_i h
    cases h
    exact absurd rfl hc
  · rename_i h1 h2 h
    cases h
    rfl

theorem splitColonOnceGo_length (l : LC) :
    ∀ acc : LC, (splitColonOnceGo acc l).length = if l.contains ':' then 2 else 1 := by
  induction l with
  | nil => intro acc; simp [splitColonOnceGo]
  | cons c cs ih =>
    intro acc
    by_cases hc : c = ':'
    · subst hc
      simp [splitColonOnceGo, List.contains_cons]
    · rw [splitColonOnceGo_cons_ne acc c cs hc, ih (c :: acc)]
      have hne : ¬ (':' = c) := fun h => hc h.symm
      simp [List.contains_cons, hc, hne]

theorem skillTokensLine_ok (line : LC) : isOkE (skillTokensLine line) = true := by
  simp only [skillTokensLine]
  by_cases hc : line.contains ':'
  · have hlen : 2 ≤ (splitColonOnce line).length := by
      rw [show splitColonOnce line = splitColonOnceGo [] line from rfl,
        splitColonOnceGo_length line [], if_pos hc]
    rcases @pyNth_ok _ (splitColonOnce line) (1) (by omega) with ⟨v, hv⟩
    simp only [if_pos hc, hv, ok_bind, pure_eq_ok]
    rfl
  · simp only [if_neg hc, pure_eq_ok, ok_bind]
    rfl

theorem skillTokensList_ok (ls : List LC) : isOkE (skillTokensList ls) = true := by
  induction ls with
  | nil => rfl
  | cons l ls ih =>
    simp only [skillTokensList]
    by_cases hs : (pyStrip l).isEmpty
    · simp only [if_pos hs]
      exact ih
    · simp only [if_neg hs]
      refine isOkE_bind_of (skillTokensLine_ok l) (fun ps => ?_)
      refine isOkE_bind_of ih (fun rest => ?_)
      rfl

theorem parse_skills_ok (block : LC) : isOkE (parse_skills block) = true := by
  simp only [parse_skills, skillTokens]
  refine isOkE_bind_of (skillTokensList_ok _) (fun toks => ?_)
  rfl

theorem parse_experience_list_ok (cs : List LC) :
    isOkE (parse_experience_list cs) = true := by
  induction cs with
  | nil => rfl
  | cons c cs ih =>
    simp only [parse_experience_list]
    by_cases he : (nonblankLines c).isEmpty
    · simp only [if_pos he]
      exact ih
    · have hne : nonblankLines c ≠ [] := by
        intro hnil
        rw [hnil] at he
        exact he rfl
      simp only [if_neg he]
      refine isOkE_bind_of (parse_experience_chunk_ok _ hne) (fun item => ?_)
      refine isOkE_bind_of ih (fun rest => ?_)
      rfl

theorem parse_education_list_ok (cs : List LC) :
    isOkE (parse_education_list cs) = true := by
  induction cs with
  | nil => rfl
  | cons c cs ih =>
    simp only [parse_education_list]
    by_cases he : (nonblankLines c).isEmpty
    · simp only [if_pos he]
      exact ih
    · have hne : nonblankLines c ≠ [] := by
        intro hnil
        rw [hnil] at he
        exact he rfl
      simp only [if_neg he]
      refine isOkE_bind_of (parse_education_chunk_ok _ hne) (fun item => ?_)
      refine isOkE_bind_of ih (fun rest => ?_)
      rfl

theorem parse_projects_list_ok (cs : List LC) :
    isOkE (parse_projects_list cs) = true := by
  induction cs with
  | nil => rfl
  | cons c cs ih =>
    simp only [parse_projects_list]
    by_cases he : (nonblankLines c).isEmpty
    · simp only [if_pos he]
      exact ih
    · have hne : nonblankLines c ≠ [] := by
        intro hnil
        rw [hnil] at he
        exact he rfl
      simp only [if_neg he]
      refine isOkE_bind_of (parse_projects_chunk_ok _ hne) (fun item => ?_)
      refine isOkE_bind_of ih (fun rest => ?_)
      rfl

theorem parse_volunteer_list_ok (cs : List LC) :
    isOkE (parse_volunteer_list cs) = true := by
  induction cs with
  | nil => rfl
  | cons c cs ih =>
    simp only [parse_volunteer_list]
    by_cases he : (nonblankLines c).isEmpty
    · simp only [if_pos he]
      exact ih
    · have hne : nonblankLines c ≠ [] := by
        intro hnil
        rw [hnil] at he
        exact he rfl
      simp only [if_neg he]
      refine isOkE_bind_of (parse_volunteer_chunk_ok _ hne) (fun item => ?_)
      refine isOkE_bind_of ih (fun rest => ?_)
      rfl

theorem parse_contact_block_ok (full_text : LC) :
    isOkE (parse_contact_block full_text) = true := by
  simp only [parse_contact_block]
  by_cases he :
      (pySplitlines (if headerLineMatch full_text then [] else full_text)).isEmpty
  · simp only [if_pos he, pure_eq_ok, ok_bind]
    rfl
  · have hne : pySplitlines (if headerLineMatch full_text then [] else full_text) ≠ [] := by
      intro hnil
      rw [hnil] at he
      exact he rfl
    rcases @pyNth_ok _ (pySplitlines (if headerLineMatch full_text then [] else full_text)) (0) (List.length_pos.mpr hne) with ⟨v, hv⟩
    simp only [if_neg he, hv, ok_bind, pure_eq_ok]
    rfl

theorem isOkE_pure {α : Type} {v : α} : isOkE (pure v : Except String α) = true := rfl

set_option maxHeartbeats 2000000 in
set_option maxRecDepth 4000 in
theorem parse_resume_text_ok (raw : LC) : isOkE (parse_resume_text raw) = true := by
  simp only [parse_resume_text]
  generalize normalize_text_preserve_tabs raw = text
  generalize split_sections text = sections
  refine isOkE_bind_of (parse_contact_block_ok _) (fun contact => ?_)
  cases pickSection sections ["EXPERIENCE", "WORK EXPERIENCE", "PROFESSIONAL EXPERIENCE"] <;>
    cases dictLookup sections "EDUCATION" <;>
      cases dictLookup sections "PROJECTS" <;>
        cases pickSection sections ["TECHNICAL SKILLS", "SKILLS"] <;>
          cases pickSection sections ["VOLUNTEER EXPERIENCE", "VOLUNTEER"] <;>
            (iterate 5
              first
                | refine isOkE_bind_of (parse_experience_list_ok _) (fun x => ?_)
                | refine isOkE_bind_of (parse_education_list_ok _) (fun x => ?_)
                | refine isOkE_bind_of (parse_projects_list_ok _) (fun x => ?_)
                | refine isOkE_bind_of (parse_skills_ok _) (fun x => ?_)
                | refine isOkE_bind_of (parse_volunteer_list_ok _) (fun x => ?_)
                | refine isOkE_bind_of isOkE_pure (fun x => ?_)) <;>
            rfl

theorem pickSection_nil (ks : List String) : pickSection [] ks = none := by
  induction ks with
  | nil => rfl
  | cons k ks ih =>
    simp only [pickSection, dictLookup]
    exact ih

/-- C3: for every input text the parsing pipeline returns a `Resume`
    record and never raises, and when segmentation recognizes no section
    headers at all, every section-derived field of the returned record is
    left at its default (unset summary, empty lists). -/
theorem C3_claim (raw : LC) :
    ∃ r : Resume, parse_resume_text raw = .ok r ∧
      (split_sections (normalize_text_preserve_tabs raw) = [] →
        r.summary = none ∧ r.experience = [] ∧ r.education = [] ∧
        r.projects = [] ∧ r.skills = [] ∧ r.certifications = [] ∧
        r.languages = [] ∧ r.volunteer = []) := by
  rcases exists_ok_of_isOkE (parse_resume_text_ok raw) with ⟨r, hr⟩
  refine ⟨r, hr, fun hempty => ?_⟩
  rw [parse_resume_text] at hr
  rw [hempty] at hr
  rcases exists_ok_of_isOkE
    (parse_contact_block_ok (normalize_text_preserve_tabs raw)) with ⟨c, hc⟩
  rw [hc] at hr
  simp only [ok_bind, pickSection_nil, dictLookup, pure_eq_ok] at hr
  cases hr
  exact ⟨rfl, rfl, rfl, rfl, rfl, rfl, rfl, rfl⟩

theorem C3_claim_witness :
    ∃ r : Resume, parse_resume_text (lc "hello world\nno headers here") = .ok r ∧
      (r.summary = none ∧ r.experience = [] ∧ r.education = [] ∧
       r.projects = [] ∧ r.skills = [] ∧ r.certifications = [] ∧
       r.languages = [] ∧ r.volunteer = []) := by
  rcases C3_claim (lc "hello world\nno headers here") with ⟨r, hok, hdef⟩
  exact ⟨r, hok, hdef (by decide)⟩

/-! ### Characterization of the assembled record (proof device) -/

/-- The value of an `ok` result, with a default for the (never-taken)
    error case. -/
def okD {α : Type} (e : Except String α) (d : α) : α :=
  match e with
  | .ok v => v
  | .error _ => d

theorem eq_ok_okD {α : Type} {e : Except String α} (d : α) (h : isOkE e = true) :
    e = .ok (okD e d) := by
  rcases exists_ok_of_isOkE h with ⟨v, rfl⟩
  rfl

theorem pureE_bind {α β : Type} (v : α) (f : α → Except String β) :
    (pure v : Except String α) >>= f = f v := rfl

theorem parse_experience_ok (block : LC) : isOkE (parse_experience block) = true :=
  parse_experience_list_ok _

theorem parse_education_ok (block : LC) : isOkE (parse_education block) = true :=
  parse_education_list_ok _

theorem parse_projects_ok (block : LC) : isOkE (parse_projects block) = true :=
  parse_projects_list_ok _

theorem parse_volunteer_ok (block : LC) : isOkE (parse_volunteer block) = true :=
  parse_volunteer_list_ok _

/-- The `Resume` record that `parse_resume_text` assembles, written
    field-by-field (each fallible extractor read through `okD`, which is
    justified by the `_ok` lemmas). -/
def assembleResume (raw : LC) : Resume :=
  let text := normalize_text_preserve_tabs raw
  let sections := split_sections text
  let contact := okD (parse_contact_block text) {}
  let summary :=
    match dictLookup sections "SUMMARY" with
    | some b => some b
    | none => dictLookup sections "OBJECTIVE"
  let experience :=
    match pickSection sections ["EXPERIENCE", "WORK EXPERIENCE", "PROFESSIONAL EXPERIENCE"] with
    | some b => okD (parse_experience b) []
    | none => []
  let education :=
    match dictLookup sections "EDUCATION" with
    | some b => okD (parse_education b) []
    | none => []
  let projects :=
    match dictLookup sections "PROJECTS" with
    | some b => okD (parse_projects b) []
    | none => []
  let project_skills := (projects.map (fun p => p.skills)).flatten
  let main_skills :=
    match pickSection sections ["TECHNICAL SKILLS", "SKILLS"] with
    | some b => okD (parse_skills b) []
    | none => []
  let certifications :=
    match pickSection sections ["CERTIFICATIONS & LICENSES", "CERTIFICATIONS", "LICENSES"] with
    | some b => parse_certs b
    | none => []
  let languages :=
    match pickSection sections ["LANGUAGES", "LANGUAGE"] with
    | some b => parse_languages b
    | none => []
  let volunteer :=
    match pickSection sections ["VOLUNTEER EXPERIENCE", "VOLUNTEER"] with
    | some b => okD (parse_volunteer b) []
    | none => []
  { contact := contact, summary := summary, experience := experience,
    education := education, projects := projects,
    skills := dedupCI (main_skills ++ project_skills),
    certifications := certifications, languages := languages,
    volunteer := volunteer }

set_option maxHeartbeats 4000000 in
set_option maxRecDepth 4000 in
theorem parse_resume_text_eq (raw : LC) :
    parse_resume_text raw = Except.ok (assembleResume raw) := by
  simp only [parse_resume_text, assembleResume]
  generalize normalize_text_preserve_tabs raw = text
  generalize split_sections text = sections
  rcases exists_ok_of_isOkE (parse_contact_block_ok text) with ⟨c, hc⟩
  rw [hc]
  simp only [ok_bind, okD]
  cases pickSection sections ["EXPERIENCE", "WORK EXPERIENCE", "PROFESSIONAL EXPERIENCE"] <;>
    cases dictLookup sections "EDUCATION" <;>
      cases dictLookup sections "PROJECTS" <;>
        cases pickSection sections ["TECHNICAL SKILLS", "SKILLS"] <;>
          cases pickSection sections ["VOLUNTEER EXPERIENCE", "VOLUNTEER"] <;>
            dsimp only <;>
            (iterate 5
              first
                | rw [eq_ok_okD ([] : List ExperienceItem) (parse_experience_ok _), ok_bind]
                | rw [eq_ok_okD ([] : List EducationItem) (parse_education_ok _), ok_bind]
                | rw [eq_ok_okD ([] : List ProjectItem) (parse_projects_ok _), ok_bind]
                | rw [eq_ok_okD ([] : List LC) (parse_skills_ok _), ok_bind]
                | rw [eq_ok_okD ([] : List ProjectItem) (parse_volunteer_ok _), ok_bind]
                | rw [pureE_bind]) <;>
            rfl

/-! ### Properties of the case-insensitive deduplication -/

theorem containsLC_cons (l : List LC) (a b : LC) :
    (b :: l).contains a = (a == b || l.contains a) := by
  simp only [List.contains_cons]

theorem dedupCIGo_sublist (l : List LC) : ∀ seen, (dedupCIGo seen l).Sublist l := by
  induction l with
  | nil => intro seen; simp [dedupCIGo]
  | cons s ss ih =>
    intro seen
    simp only [dedupCIGo]
    by_cases hc : seen.contains (pyLower s)
    · simp only [if_pos hc]
      exact (ih seen).trans (List.sublist_cons_self s ss)
    · simp only [if_neg hc]
      exact (ih _).cons₂ s

theorem mem_dedupCIGo_not_seen {x : LC} (l : List LC) :
    ∀ seen, x ∈ dedupCIGo seen l → pyLower x ∉ seen := by
  induction l with
  | nil => intro seen hx; simp [dedupCIGo] at hx
  | cons s ss ih =>
    intro seen hx
    simp only [dedupCIGo] at hx
    by_cases hc : seen.contains (pyLower s)
    · rw [if_pos hc] at hx
      exact ih seen hx
    · rw [if_neg hc] at hx
      rcases List.mem_cons.mp hx with rfl | hx2
      · intro hmem
        exact hc (by simpa using hmem)
      · intro hmem
        exact ih _ hx2 (List.mem_cons_of_mem _ hmem)

theorem dedupCIGo_pairwise (l : List LC) :
    ∀ seen, (dedupCIGo seen l).Pairwise (fun a b => pyLower a ≠ pyLower b) := by
  induction l with
  | nil => intro seen; simp [dedupCIGo]
  | cons s ss ih =>
    intro seen
    simp only [dedupCIGo]
    by_cases hc : seen.contains (pyLower s)
    · rw [if_pos hc]
      exact ih seen
    · rw [if_neg hc]
      refine List.Pairwise.cons (fun y hy heq => ?_) (ih _)
      exact mem_dedupCIGo_not_seen ss _ hy (heq ▸ List.mem_cons_self _ _)

theorem dedupCIGo_dedupCIGo_append (a : List LC) :
    ∀ seen b, dedupCIGo seen (dedupCIGo seen a ++ b) = dedupCIGo seen (a ++ b) := by
  induction a with
  | nil => intro seen b; rfl
  | cons s ss ih =>
    intro seen b
    by_cases hc : seen.contains (pyLower s)
    · rw [show dedupCIGo seen (s :: ss) = dedupCIGo seen ss from by
        simp only [dedupCIGo, if_pos hc],
        show (s :: ss) ++ b = s :: (ss ++ b) from rfl,
        show dedupCIGo seen (s :: (ss ++ b)) = dedupCIGo seen (ss ++ b) from by
          simp only [dedupCIGo, if_pos hc]]
      exact ih seen b
    · rw [show dedupCIGo seen (s :: ss) = s :: dedupCIGo (pyLower s :: seen) ss from by
        simp only [dedupCIGo, if_neg hc],
        show (s :: dedupCIGo (pyLower s :: seen) ss) ++ b =
          s :: (dedupCIGo (pyLower s :: seen) ss ++ b) from rfl,
        show dedupCIGo seen (s :: (dedupCIGo (pyLower s :: seen) ss ++ b)) =
          s :: dedupCIGo (pyLower s :: seen) (dedupCIGo (pyLower s :: seen) ss ++ b) from by
          simp only [dedupCIGo, if_neg hc],
        ih (pyLower s :: seen) b,
        show (s :: ss) ++ b = s :: (ss ++ b) from rfl,
        show dedupCIGo seen (s :: (ss ++ b)) =
          s :: dedupCIGo (pyLower s :: seen) (ss ++ b) from by
          simp only [dedupCIGo, if_neg hc]]

theorem dedupCI_dedupCI_append (a b : List LC) :
    dedupCI (dedupCI a ++ b) = dedupCI (a ++ b) :=
  dedupCIGo_dedupCIGo_append a [] b

theorem dedupCIGo_congr (l : List LC) :
    ∀ s1 s2, (∀ x, s1.contains x = s2.contains x) →
      dedupCIGo s1 l = dedupCIGo s2 l := by
  induction l with
  | nil => intro _ _ _; rfl
  | cons a as ih =>
    intro s1 s2 h
    simp only [dedupCIGo, h (pyLower a)]
    by_cases hc : s2.contains (pyLower a)
    · simp only [if_pos hc]
      exact ih s1 s2 h
    · simp only [if_neg hc]
      rw [ih (pyLower a :: s1) (pyLower a :: s2) (fun x => by
        rw [containsLC_cons, containsLC_cons, h x])]

theorem dedupCIGo_cons_seen (l : List LC) :
    ∀ seen k, dedupCIGo (k :: seen) l =
      dedupCIGo seen (l.filter (fun y => !(pyLower y == k))) := by
  induction l with
  | nil => intro _ _; rfl
  | cons s ss ih =>
    intro seen k
    by_cases h1 : pyLower s = k
    · subst h1
      rw [show dedupCIGo (pyLower s :: seen) (s :: ss) =
          dedupCIGo (pyLower s :: seen) ss from by
        simp only [dedupCIGo, containsLC_cons]
        rw [if_pos (by simp)],
        show (s :: ss).filter (fun y => !(pyLower y == pyLower s)) =
          ss.filter (fun y => !(pyLower y == pyLower s)) from by
        simp [List.filter_cons]]
      exact ih seen (pyLower s)
    · have hkeep : (s :: ss).filter (fun y => !(pyLower y == k)) =
        s :: ss.filter (fun y => !(pyLower y == k)) := by
        simp [List.filter_cons, h1]
      by_cases h2 : seen.contains (pyLower s)
      · rw [show dedupCIGo (k :: seen) (s :: ss) = dedupCIGo (k :: seen) ss from by
          simp only [dedupCIGo, containsLC_cons]
          rw [if_pos (by simp only [Bool.or_eq_true]; exact Or.inr h2)],
          hkeep,
          show dedupCIGo seen (s :: ss.filter (fun y => !(pyLower y == k))) =
            dedupCIGo seen (ss.filter (fun y => !(pyLower y == k))) from by
          simp only [dedupCIGo, if_pos h2]]
        exact ih seen k
      · rw [show dedupCIGo (k :: seen) (s :: ss) =
            s :: dedupCIGo (pyLower s :: k :: seen) ss from by
          simp only [dedupCIGo, containsLC_cons]
          rw [if_neg (by
            simp only [Bool.or_eq_true, beq_iff_eq]
            rintro (h | h)
            · exact h1 h
            · exact h2 h)],
          hkeep,
          show dedupCIGo seen (s :: ss.filter (fun y => !(pyLower y == k))) =
            s :: dedupCIGo (pyLower s :: seen)
              (ss.filter (fun y => !(pyLower y == k))) from by
          simp only [dedupCIGo, if_neg h2],
          dedupCIGo_congr ss (pyLower s :: k :: seen) (k :: pyLower s :: seen)
            (fun x => by
              rw [containsLC_cons, containsLC_cons, containsLC_cons, containsLC_cons]
              cases x == pyLower s <;> cases x == k <;> rfl),
          ih (pyLower s :: seen) k]

theorem dedupCI_cons_first_wins (x : LC) (xs : List LC) :
    dedupCI (x :: xs) = x :: dedupCI (xs.filter (fun y => !(pyLower y == pyLower x))) := by
  rw [show dedupCI (x :: xs) = x :: dedupCIGo [pyLower x] xs from by
    simp only [dedupCI, dedupCIGo, List.contains_nil]
    rfl]
  rw [show ([pyLower x] : List LC) = pyLower x :: [] from rfl, dedupCIGo_cons_seen]
  rfl

theorem skillTokens_ok (block : LC) : isOkE (skillTokens block) = true :=
  skillTokensList_ok _

theorem dedupCI_sublist (l : List LC) : (dedupCI l).Sublist l :=
  dedupCIGo_sublist l []

theorem dedupCI_pairwise (l : List LC) :
    (dedupCI l).Pairwise (fun a b => pyLower a ≠ pyLower b) :=
  dedupCIGo_pairwise l []

def projectsOf (raw : LC) : List ProjectItem :=
  match dictLookup (split_sections (normalize_text_preserve_tabs raw)) "PROJECTS" with
  | some b => okD (parse_projects b) []
  | none => []

theorem assembleResume_projects (raw : LC) :
    (assembleResume raw).projects = projectsOf raw := by
  simp only [assembleResume, projectsOf]

theorem assembleResume_skills (raw : LC) :
    (assembleResume raw).skills =
      dedupCI
        ((match pickSection (split_sections (normalize_text_preserve_tabs raw))
            ["TECHNICAL SKILLS", "SKILLS"] with
          | some b => okD (parse_skills b) []
          | none => []) ++
         ((projectsOf raw).map (fun p => p.skills)).flatten) := by
  simp only [assembleResume, projectsOf]

/-- C4: in the assembled record, the flat skills list equals the raw
    skills-section tokens followed by the project items' skills,
    deduplicated case-insensitively: the result is a sublist of that
    concatenation (first occurrence's casing and relative position kept),
    no two entries share a lowercase form, and the dedup keeps the first
    occurrence of each case-class (head always kept, later same-class
    entries dropped). -/
theorem C4_claim (raw : LC) (r : Resume) (h : parse_resume_text raw = .ok r) :
    ∃ toks : List LC,
      (match pickSection (split_sections (normalize_text_preserve_tabs raw))
          ["TECHNICAL SKILLS", "SKILLS"] with
       | some b => skillTokens b = .ok toks
       | none => toks = []) ∧
      r.skills = dedupCI (toks ++ (r.projects.map (fun p => p.skills)).flatten) ∧
      r.skills.Sublist (toks ++ (r.projects.map (fun p => p.skills)).flatten) ∧
      r.skills.Pairwise (fun a b => pyLower a ≠ pyLower b) ∧
      (∀ x xs, dedupCI (x :: xs) =
        x :: dedupCI (xs.filter (fun y => !(pyLower y == pyLower x)))) := by
  have heq := parse_resume_text_eq raw
  rw [h] at heq
  have hr : r = assembleResume raw := Except.ok.inj heq
  subst hr
  rcases hpick : pickSection (split_sections (normalize_text_preserve_tabs raw))
      ["TECHNICAL SKILLS", "SKILLS"] with _ | b
  · refine ⟨[], rfl, ?_, ?_, ?_, fun x xs => dedupCI_cons_first_wins x xs⟩
    · rw [assembleResume_skills, assembleResume_projects, hpick]
    · rw [assembleResume_skills, assembleResume_projects, hpick]
      exact dedupCI_sublist _
    · rw [assembleResume_skills]
      exact dedupCI_pairwise _
  · have ht := eq_ok_okD ([] : List LC) (skillTokens_ok b)
    have hps : parse_skills b = .ok (dedupCI (okD (skillTokens b) [])) := by
      simp only [parse_skills]
      rw [ht, ok_bind]
      rfl
    refine ⟨okD (skillTokens b) [], ht, ?_, ?_, ?_,
      fun x xs => dedupCI_cons_first_wins x xs⟩
    · rw [assembleResume_skills, assembleResume_projects, hpick]
      dsimp only
      rw [hps]
      rw [show okD (Except.ok (dedupCI (okD (skillTokens b) []))) ([] : List LC) =
        dedupCI (okD (skillTokens b) []) from rfl]
      exact dedupCI_dedupCI_append _ _
    · rw [assembleResume_skills, assembleResume_projects, hpick]
      dsimp only
      rw [hps]
      rw [show okD (Except.ok (dedupCI (okD (skillTokens b) []))) ([] : List LC) =
        dedupCI (okD (skillTokens b) []) from rfl]
      rw [dedupCI_dedupCI_append]
      exact dedupCI_sublist _
    · rw [assembleResume_skills]
      exact dedupCI_pairwise _

theorem C4_claim_witness :
    ∃ toks : List LC,
      (match pickSection
          (split_sections (normalize_text_preserve_tabs
            (lc "SKILLS\nPython, go\nGO | Git")))
          ["TECHNICAL SKILLS", "SKILLS"] with
       | some b => skillTokens b = .ok toks
       | none => toks = []) ∧
      (assembleResume (lc "SKILLS\nPython, go\nGO | Git")).skills =
        dedupCI (toks ++
          ((assembleResume (lc "SKILLS\nPython, go\nGO | Git")).projects.map
            (fun p => p.skills)).flatten) ∧
      (assembleResume (lc "SKILLS\nPython, go\nGO | Git")).skills.Sublist
        (toks ++
          ((assembleResume (lc "SKILLS\nPython, go\nGO | Git")).projects.map
            (fun p => p.skills)).flatten) ∧
      (assembleResume (lc "SKILLS\nPython, go\nGO | Git")).skills.Pairwise
        (fun a b => pyLower a ≠ pyLower b) ∧
      (∀ x xs, dedupCI (x :: xs) =
        x :: dedupCI (xs.filter (fun y => !(pyLower y == pyLower x)))) :=
  C4_claim (lc "SKILLS\nPython, go\nGO | Git")
    (assembleResume (lc "SKILLS\nPython, go\nGO | Git"))
    (parse_resume_text_eq (lc "SKILLS\nPython, go\nGO | Git"))

/-! ### The canonical-keys invariant of the sections map -/

/-- The nine canonical section names (left column of `HEADER_ALIASES`). -/
def canonicalNames : List String := HEADER_ALIASES.map (fun p => p.1)

theorem canonical_header_mem (s : LC) (n : String)
    (h : canonical_header s = some n) : n ∈ canonicalNames := by
  simp only [canonical_header] at h
  rcases Option.map_eq_some'.mp h with ⟨p, hp, heq⟩
  subst heq
  exact List.mem_map_of_mem _ (List.mem_of_find?_eq_some hp)

theorem canonicalOfLine_mem (line : LC) (n : String)
    (h : canonicalOfLine line = some n) : n ∈ canonicalNames := by
  simp only [canonicalOfLine] at h
  by_cases hm : headerLineMatch (pyStrip line)
  · rw [if_pos hm] at h
    exact canonical_header_mem _ _ h
  · rw [if_neg hm] at h
    cases h

theorem boundaryList_names (lines : List LC) (i : Nat) (n : String)
    (h : (i, n) ∈ boundaryList lines) : n ∈ canonicalNames := by
  simp only [boundaryList, List.mem_filterMap] at h
  rcases h with ⟨p, hp, hmap⟩
  rcases Option.map_eq_some'.mp hmap with ⟨m, hm, heq⟩
  cases heq
  exact canonicalOfLine_mem _ _ hm

theorem occList_keys (lines : List LC) (bl : List (Nat × String)) :
    ∀ p ∈ occList lines bl, ∃ i, (i, p.1) ∈ bl := by
  induction bl with
  | nil => intro p hp; simp [occList] at hp
  | cons q rest ih =>
    rcases q with ⟨i, n⟩
    intro p hp
    simp only [occList] at hp
    rcases List.mem_cons.mp hp with rfl | hp2
    · exact ⟨i, List.mem_cons_self _ _⟩
    · rcases ih p hp2 with ⟨j, hj⟩
      exact ⟨j, List.mem_cons_of_mem _ hj⟩

theorem dictInsert_keys (m : List (String × LC)) (k : String) (v : LC) :
    ∀ p ∈ dictInsert m k v, p.1 = k ∨ p.1 ∈ m.map (fun q => q.1) := by
  induction m with
  | nil =>
    intro p hp
    simp only [dictInsert, List.mem_singleton] at hp
    subst hp
    exact Or.inl rfl
  | cons q rest ih =>
    rcases q with ⟨k0, v0⟩
    intro p hp
    simp only [dictInsert] at hp
    by_cases hk : k0 = k
    · rw [if_pos hk] at hp
      rcases List.mem_cons.mp hp with rfl | hp2
      · exact Or.inl hk
      · exact Or.inr (List.mem_cons_of_mem _ (List.mem_map_of_mem _ hp2))
    · rw [if_neg hk] at hp
      rcases List.mem_cons.mp hp with rfl | hp2
      · exact Or.inr (List.mem_cons_self _ _)
      · rcases ih p hp2 with h | h
        · exact Or.inl h
        · exact Or.inr (List.mem_cons_of_mem _ h)

theorem insertBodies_keys (occ : List (String × LC)) :
    ∀ m, ∀ p ∈ insertBodies m occ,
      p.1 ∈ m.map (fun q => q.1) ∨ ∃ q ∈ occ, p.1 = q.1 := by
  induction occ with
  | nil =>
    intro m p hp
    exact Or.inl (List.mem_map_of_mem _ hp)
  | cons e rest ih =>
    rcases e with ⟨n, b⟩
    intro m p hp
    simp only [insertBodies] at hp
    rcases ih _ p hp with hk | ⟨q, hq, hpq⟩
    · by_cases hb : b ≠ []
      · rw [if_pos hb] at hk
        rcases List.mem_map.mp hk with ⟨r, hr, hr1⟩
        rcases dictInsert_keys m n b r hr with h | h
        · exact Or.inr ⟨(n, b), List.mem_cons_self _ _, by rw [← hr1, h]⟩
        · exact Or.inl (hr1 ▸ h)
      · rw [if_neg hb] at hk
        exact Or.inl hk
    · exact Or.inr ⟨q, List.mem_cons_of_mem _ hq, hpq⟩

theorem split_sections_keys (t : LC) :
    ∀ p ∈ split_sections t, p.1 ∈ canonicalNames := by
  intro p hp
  simp only [split_sections] at hp
  rcases insertBodies_keys _ _ p hp with hk | ⟨q, hq, hpq⟩
  · simp at hk
  · rcases occList_keys _ _ q hq with ⟨i, hi⟩
    rw [hpq]
    exact boundaryList_names _ i q.1 hi

theorem dictLookup_eq_none_of_not_key (m : List (String × LC)) (k : String)
    (h : ∀ p ∈ m, p.1 ≠ k) : dictLookup m k = none := by
  induction m with
  | nil => rfl
  | cons q rest ih =>
    simp only [dictLookup]
    rw [if_neg (h q (List.mem_cons_self _ _))]
    exact ih (fun p hp => h p (List.mem_cons_of_mem _ hp))

theorem split_sections_alias_none (t : LC) (k : String) (hk : k ∉ canonicalNames) :
    dictLookup (split_sections t) k = none :=
  dictLookup_eq_none_of_not_key _ _
    (fun p hp hpk => hk (hpk ▸ split_sections_keys t p hp))

/-- C10: every key of the sections map is one of the nine canonical header
    names; the alias spellings are never present as keys; consequently
    each priority-list lookup in the assembler reduces to its first
    (canonical) key, and the OBJECTIVE fallback can never produce a
    value. -/
theorem C10_claim (t : LC) :
    (∀ p ∈ split_sections t, p.1 ∈ canonicalNames) ∧
    dictLookup (split_sections t) "OBJECTIVE" = none ∧
    dictLookup (split_sections t) "WORK EXPERIENCE" = none ∧
    dictLookup (split_sections t) "PROFESSIONAL EXPERIENCE" = none ∧
    dictLookup (split_sections t) "SKILLS" = none ∧
    dictLookup (split_sections t) "CERTIFICATIONS" = none ∧
    dictLookup (split_sections t) "LICENSES" = none ∧
    dictLookup (split_sections t) "LANGUAGE" = none ∧
    dictLookup (split_sections t) "VOLUNTEER" = none ∧
    pickSection (split_sections t)
        ["EXPERIENCE", "WORK EXPERIENCE", "PROFESSIONAL EXPERIENCE"] =
      dictLookup (split_sections t) "EXPERIENCE" ∧
    pickSection (split_sections t) ["TECHNICAL SKILLS", "SKILLS"] =
      dictLookup (split_sections t) "TECHNICAL SKILLS" ∧
    pickSection (split_sections t)
        ["CERTIFICATIONS & LICENSES", "CERTIFICATIONS", "LICENSES"] =
      dictLookup (split_sections t) "CERTIFICATIONS & LICENSES" ∧
    pickSection (split_sections t) ["LANGUAGES", "LANGUAGE"] =
      dictLookup (split_sections t) "LANGUAGES" ∧
    pickSection (split_sections t) ["VOLUNTEER EXPERIENCE", "VOLUNTEER"] =
      dictLookup (split_sections t) "VOLUNTEER EXPERIENCE" := by
  have hWE := split_sections_alias_none t "WORK EXPERIENCE" (by decide)
  have hPE := split_sections_alias_none t "PROFESSIONAL EXPERIENCE" (by decide)
  have hSK := split_sections_alias_none t "SKILLS" (by decide)
  have hCE := split_sections_alias_none t "CERTIFICATIONS" (by decide)
  have hLI := split_sections_alias_none t "LICENSES" (by decide)
  have hLA := split_sections_alias_none t "LANGUAGE" (by decide)
  have hVO := split_sections_alias_none t "VOLUNTEER" (by decide)
  have hOB := split_sections_alias_none t "OBJECTIVE" (by decide)
  refine ⟨split_sections_keys t, hOB, hWE, hPE, hSK, hCE, hLI, hLA, hVO,
    ?_, ?_, ?_, ?_, ?_⟩
  · simp only [pickSection, hWE, hPE]
    cases dictLookup (split_sections t) "EXPERIENCE" <;> rfl
  · simp only [pickSection, hSK]
    cases dictLookup (split_sections t) "TECHNICAL SKILLS" <;> rfl
  · simp only [pickSection, hCE, hLI]
    cases dictLookup (split_sections t) "CERTIFICATIONS & LICENSES" <;> rfl
  · simp only [pickSection, hLA]
    cases dictLookup (split_sections t) "LANGUAGES" <;> rfl
  · simp only [pickSection, hVO]
    cases dictLookup (split_sections t) "VOLUNTEER EXPERIENCE" <;> rfl

theorem C10_claim_witness :
    "SUMMARY" ∈ canonicalNames ∧
    dictLookup (split_sections (lc "OBJECTIVE\nstuff")) "OBJECTIVE" = none ∧
    pickSection (split_sections (lc "OBJECTIVE\nstuff"))
        ["TECHNICAL SKILLS", "SKILLS"] =
      dictLookup (split_sections (lc "OBJECTIVE\nstuff")) "TECHNICAL SKILLS" :=
  ⟨(C10_claim (lc "OBJECTIVE\nstuff")).1 ("SUMMARY", lc "stuff") (by decide),
   (C10_claim (lc "OBJECTIVE\nstuff")).2.1,
   (C10_claim (lc "OBJECTIVE\nstuff")).2.2.2.2.2.2.2.2.2.2.1⟩

theorem assembleResume_summary (raw : LC) :
    (assembleResume raw).summary =
      match dictLookup (split_sections (normalize_text_preserve_tabs raw)) "SUMMARY" with
      | some b => some b
      | none => dictLookup (split_sections (normalize_text_preserve_tabs raw)) "OBJECTIVE" := by
  simp only [assembleResume]

/-- C7 counterexample: on "SUMMARY\nsum1\nOBJECTIVE\nobj1" both a
    SUMMARY-spelled and an OBJECTIVE-spelled header line are section
    boundaries with non-empty bodies, yet the assembled summary is the
    OBJECTIVE body "obj1", not the SUMMARY body "sum1": the later
    occurrence wins because OBJECTIVE canonicalizes to SUMMARY before
    storage, so no preference between the two ever applies. -/
theorem C7_counterexample :
    boundaryList (pySplitlines (normalize_text_preserve_tabs
        (lc "SUMMARY\nsum1\nOBJECTIVE\nobj1"))) =
      [(0, "SUMMARY"), (2, "SUMMARY")] ∧
    (parse_resume_text (lc "SUMMARY\nsum1\nOBJECTIVE\nobj1")).map
        (fun r => r.summary) = .ok (some (lc "obj1")) ∧
    lc "obj1" ≠ lc "sum1" := by
  refine ⟨by decide, by decide, by decide⟩

/-- C7 (amended): the assembled summary is always the sections-map entry
    for "SUMMARY" (into which both SUMMARY- and OBJECTIVE-spelled headers
    are canonicalized, so the last stored occurrence wins); the
    OBJECTIVE fallback lookup is always `none` and never fires. -/
theorem C7_claim (raw : LC) (r : Resume) (h : parse_resume_text raw = .ok r) :
    r.summary =
      dictLookup (split_sections (normalize_text_preserve_tabs raw)) "SUMMARY" ∧
    dictLookup (split_sections (normalize_text_preserve_tabs raw)) "OBJECTIVE" = none := by
  have heq := parse_resume_text_eq raw
  rw [h] at heq
  have hr : r = assembleResume raw := Except.ok.inj heq
  subst hr
  have hOB := split_sections_alias_none (normalize_text_preserve_tabs raw)
    "OBJECTIVE" (by decide)
  refine ⟨?_, hOB⟩
  rw [assembleResume_summary]
  cases hs : dictLookup (split_sections (normalize_text_preserve_tabs raw)) "SUMMARY"
  · exact hOB
  · rfl

theorem C7_claim_witness :
    (assembleResume (lc "SUMMARY\nsum1\nOBJECTIVE\nobj1")).summary =
      dictLookup (split_sections (normalize_text_preserve_tabs
        (lc "SUMMARY\nsum1\nOBJECTIVE\nobj1"))) "SUMMARY" ∧
    dictLookup (split_sections (normalize_text_preserve_tabs
        (lc "SUMMARY\nsum1\nOBJECTIVE\nobj1"))) "OBJECTIVE" = none :=
  C7_claim (lc "SUMMARY\nsum1\nOBJECTIVE\nobj1")
    (assembleResume (lc "SUMMARY\nsum1\nOBJECTIVE\nobj1"))
    (parse_resume_text_eq (lc "SUMMARY\nsum1\nOBJECTIVE\nobj1"))

/-! ### Last-non-empty-wins characterization of the sections map -/

theorem dictLookup_dictInsert_self (m : List (String × LC)) (k : String) (v : LC) :
    dictLookup (dictInsert m k v) k = some v := by
  induction m with
  | nil => simp [dictInsert, dictLookup]
  | cons q rest ih =>
    rcases q with ⟨k0, v0⟩
    simp only [dictInsert]
    by_cases hk : k0 = k
    · simp [dictLookup, hk]
    · simp only [if_neg hk, dictLookup]
      exact ih

theorem dictLookup_dictInsert_ne (m : List (String × LC)) (n k : String) (v : LC)
    (h : n ≠ k) : dictLookup (dictInsert m n v) k = dictLookup m k := by
  induction m with
  | nil => simp [dictInsert, dictLookup, h]
  | cons q rest ih =>
    rcases q with ⟨k0, v0⟩
    simp only [dictInsert]
    by_cases hk : k0 = n
    · subst hk
      simp only [if_pos rfl, dictLookup]
      rw [if_neg h, if_neg h]
    · simp only [if_neg hk, dictLookup]
      by_cases hk2 : k0 = k
      · rw [if_pos hk2, if_pos hk2]
      · rw [if_neg hk2, if_neg hk2]
        exact ih

theorem mem_dictInsert (m : List (String × LC)) (k : String) (v : LC) :
    ∀ p ∈ dictInsert m k v, p.2 = v ∨ p ∈ m := by
  induction m with
  | nil =>
    intro p hp
    simp only [dictInsert, List.mem_singleton] at hp
    subst hp
    exact Or.inl rfl
  | cons q rest ih =>
    rcases q with ⟨k0, v0⟩
    intro p hp
    simp only [dictInsert] at hp
    by_cases hk : k0 = k
    · rw [if_pos hk] at hp
      rcases List.mem_cons.mp hp with rfl | hp2
      · exact Or.inl rfl
      · exact Or.inr (List.mem_cons_of_mem _ hp2)
    · rw [if_neg hk] at hp
      rcases List.mem_cons.mp hp with rfl | hp2
      · exact Or.inr (List.mem_cons_self _ _)
      · rcases ih p hp2 with h | h
        · exact Or.inl h
        · exact Or.inr (List.mem_cons_of_mem _ h)

theorem insertBodies_no_empty (occ : List (String × LC)) :
    ∀ m, (∀ p ∈ m, p.2 ≠ []) → ∀ p ∈ insertBodies m occ, p.2 ≠ [] := by
  induction occ with
  | nil => intro m hm p hp; exact hm p hp
  | cons e rest ih =>
    rcases e with ⟨n, b⟩
    intro m hm p hp
    simp only [insertBodies] at hp
    refine ih _ (fun q hq => ?_) p hp
    by_cases hb : b ≠ []
    · rw [if_pos hb] at hq
      rcases mem_dictInsert m n b q hq with h | h
      · rw [h]; exact hb
      · exact hm q h
    · rw [if_neg hb] at hq
      exact hm q hq

theorem insertBodies_lookup (occ : List (String × LC)) :
    ∀ m k, dictLookup (insertBodies m occ) k =
      match (occ.filter (fun p => p.1 == k && !(p.2 == []))).getLast? with
      | some p => some p.2
      | none => dictLookup m k := by
  induction occ with
  | nil => intro m k; rfl
  | cons e rest ih =>
    rcases e with ⟨n, b⟩
    intro m k
    simp only [insertBodies]
    rw [ih]
    by_cases hkeep : ((n, b).1 == k && !((n, b).2 == [])) = true
    · have hn : n = k := by
        have := (Bool.and_eq_true _ _).mp hkeep
        exact beq_iff_eq.mp this.1
      have hb : b ≠ [] := by
        have := (Bool.and_eq_true _ _).mp hkeep
        intro hbe
        rw [hbe] at this
        simp at this
      rw [show ((n, b) :: rest).filter (fun p => p.1 == k && !(p.2 == [])) =
        (n, b) :: rest.filter (fun p => p.1 == k && !(p.2 == [])) from by
        rw [List.filter_cons, if_pos hkeep]]
      cases hfr : rest.filter (fun p => p.1 == k && !(p.2 == [])) with
      | nil =>
        rw [List.getLast?_nil, List.getLast?_singleton, if_pos hb, hn]
        exact dictLookup_dictInsert_self m k b
      | cons q qs =>
        rw [List.getLast?_cons_cons]
        cases hgl : (q :: qs).getLast? with
        | none => exact absurd hgl (by simp)
        | some p => rfl
    · rw [show ((n, b) :: rest).filter (fun p => p.1 == k && !(p.2 == [])) =
        rest.filter (fun p => p.1 == k && !(p.2 == [])) from by
        rw [List.filter_cons, if_neg hkeep]]
      cases hgl : (rest.filter (fun p => p.1 == k && !(p.2 == []))).getLast? with
      | none =>
        by_cases hb : b ≠ []
        · rw [if_pos hb]
          have hn : n ≠ k := by
            intro hnk
            apply hkeep
            simp only [Bool.and_eq_true, beq_iff_eq]
            exact ⟨hnk, by simpa using hb⟩
          exact dictLookup_dictInsert_ne m n k b hn
        · rw [if_neg hb]
      | some p => rfl

/-- C6 (amended): every stored body is non-empty, and the sections map
    sends each name to the body of the LAST occurrence whose body is
    non-empty after trimming — a later duplicate with an empty body does
    not replace (nor remove) an earlier non-empty one. -/
theorem C6_claim (t : LC) :
    (∀ p ∈ split_sections t, p.2 ≠ []) ∧
    (∀ k, dictLookup (split_sections t) k =
      ((occList (pySplitlines t) (boundaryList (pySplitlines t))).filter
          (fun p => p.1 == k && !(p.2 == []))).getLast?.map (fun p => p.2)) := by
  constructor
  · intro p hp
    simp only [split_sections] at hp
    exact insertBodies_no_empty _ [] (by intro q hq; cases hq) p hp
  · intro k
    rw [show split_sections t =
      insertBodies [] (occList (pySplitlines t) (boundaryList (pySplitlines t))) from rfl]
    rw [insertBodies_lookup]
    cases ((occList (pySplitlines t) (boundaryList (pySplitlines t))).filter
        (fun p => p.1 == k && !(p.2 == []))).getLast? <;> rfl

/-- C6 counterexample: in "EXPERIENCE\nbody1\nEXPERIENCE" the canonical
    name EXPERIENCE is produced by two header lines; the later
    occurrence's body is empty, yet the map still holds the EARLIER body
    "body1" — the later occurrence's body neither replaces the entry nor
    is stored. -/
theorem C6_counterexample :
    occList (pySplitlines (lc "EXPERIENCE\nbody1\nEXPERIENCE"))
        (boundaryList (pySplitlines (lc "EXPERIENCE\nbody1\nEXPERIENCE"))) =
      [("EXPERIENCE", lc "body1"), ("EXPERIENCE", [])] ∧
    dictLookup (split_sections (lc "EXPERIENCE\nbody1\nEXPERIENCE")) "EXPERIENCE" =
      some (lc "body1") ∧
    some (lc "body1") ≠ some ([] : LC) := by
  refine ⟨by decide, by decide, by decide⟩

theorem C6_claim_witness :
    ("EXPERIENCE", lc "body1").2 ≠ ([] : LC) ∧
    dictLookup (split_sections (lc "EXPERIENCE\nbody1\nEXPERIENCE")) "EXPERIENCE" =
      ((occList (pySplitlines (lc "EXPERIENCE\nbody1\nEXPERIENCE"))
          (boundaryList (pySplitlines (lc "EXPERIENCE\nbody1\nEXPERIENCE")))).filter
          (fun p => p.1 == "EXPERIENCE" && !(p.2 == []))).getLast?.map (fun p => p.2) :=
  ⟨(C6_claim (lc "EXPERIENCE\nbody1\nEXPERIENCE")).1 ("EXPERIENCE", lc "body1")
      (by decide),
   (C6_claim (lc "EXPERIENCE\nbody1\nEXPERIENCE")).2 "EXPERIENCE"⟩

/-- C9: both normalizers are idempotent — normalizing already-normalized
    text is a no-op, for every input. -/
theorem C9_claim (t : LC) :
    normalize_text (normalize_text t) = normalize_text t ∧
    normalize_text_preserve_tabs (normalize_text_preserve_tabs t) =
      normalize_text_preserve_tabs t :=
  ⟨normalize_text_idem t, normalize_text_preserve_tabs_idem t⟩

/-- C2 counterexample: column-preserving normalization does NOT leave
    multi-space runs intact — `"a  b"` becomes `"a b"` (the code collapses
    every space run `[ ]+`, not only single-space runs). -/
theorem C2_counterexample :
    normalize_text_preserve_tabs (lc "a  b") = lc "a b" ∧ lc "a b" ≠ lc "a  b" := by
  refine ⟨by decide, by decide⟩

theorem collapseClassGo_count (p : Char → Bool) (c : Char) (hp : p c = false)
    (hsp : c ≠ ' ') (l : LC) :
    ∀ b, (collapseClassGo p b l).count c = l.count c := by
  induction l with
  | nil => intro b; rfl
  | cons d ds ih =>
    intro b
    by_cases hd : p d
    · have hcd : (c == d) = false := by
        rw [beq_eq_false_iff_ne]
        intro h
        rw [← h] at hd
        rw [hd] at hp
        cases hp
      have hcs : (c == ' ') = false := by
        rw [beq_eq_false_iff_ne]
        exact hsp
      have h1 : ¬ (' ' = c) := fun h => hsp h.symm
      have h2 : ¬ (d = c) := fun h => (beq_eq_false_iff_ne.mp hcd) h.symm
      simp only [collapseClassGo, if_pos hd]
      cases b
      · simp [List.count_cons, h1, h2, ih true]
      · simp [List.count_cons, h2, ih true]
    · simp only [collapseClassGo, if_neg hd]
      rw [List.count_cons, List.count_cons, ih false]

/-- C2 (amended): column-preserving normalization collapses EVERY run of
    spaces to a single space (its output never contains two adjacent
    spaces), while tab characters are untouched by the collapsing step;
    on `"a\tb  c"` the tab survives but the double space does not. -/
theorem C2_claim (t : LC) :
    chainB noTwoSpacePred (normalize_text_preserve_tabs t) = true ∧
    (∀ l : LC, (collapseSpaces l).count '\t' = l.count '\t') ∧
    normalize_text_preserve_tabs (lc "a\tb  c") = lc "a\tb c" := by
  refine ⟨?_, ?_, by decide⟩
  · rcases stageB_facts (stageAPres t) with ⟨-, -, -, -, -, hchain⟩
    exact hchain (stageAPres_chain t)
  · intro l
    exact collapseClassGo_count isSpaceChar '\t' (by decide) (by decide) l false

/-- C1 counterexample: on the scenario input the single ExperienceItem
    has company = none and location = "Acme Corp Austin, TX", not
    company = "Acme Corp" and location = "Austin, TX" as claimed — the
    normalizer collapses the three-space column gap to one space, so the
    company/location split never happens. -/
theorem C1_counterexample :
    (parse_resume_text (lc "Jane Doe\nAustin, TX | (512) 555-0100 | jane@x.com\n\nEXPERIENCE\nAcme Corp   Austin, TX\nEngineer   Jan 2022 - Present\n- Built service")).map
        (fun r => r.experience.map (fun e => (e.company, e.location))) =
      .ok [(none, some (lc "Acme Corp Austin, TX"))] ∧
    ¬ ((none : Option LC) = some (lc "Acme Corp") ∧
       some (lc "Acme Corp Austin, TX") = some (lc "Austin, TX")) := by
  refine ⟨by decide, by decide⟩

/-- C1 (amended): the full record parsed from the scenario input.
    Contact name/email/phone and the item's title, dates and bullets are
    as the claim states, but company stays unset and the whole
    (space-collapsed) first chunk line "Acme Corp Austin, TX" lands in
    location. -/
theorem C1_claim :
    parse_resume_text (lc "Jane Doe\nAustin, TX | (512) 555-0100 | jane@x.com\n\nEXPERIENCE\nAcme Corp   Austin, TX\nEngineer   Jan 2022 - Present\n- Built service") =
      .ok { contact := { name := some (lc "Jane Doe"),
                         email := some (lc "jane@x.com"),
                         phone := some (lc "(512) 555-0100"),
                         location := some (lc "Austin, TX"),
                         website := some (lc "jane@x.com"),
                         linkedin := none, github := none,
                         citizenship := none, clearance := none },
            summary := none,
            experience := [{ title := some (lc "Engineer"),
                             company := none,
                             location := some (lc "Acme Corp Austin, TX"),
                             start_date := some (lc "Jan 2022"),
                             end_date := some (lc "Present"),
                             bullets := [lc "Built service"],
                             skills := [], priority := none }],
            education := [], projects := [], skills := [],
            certifications := [], languages := [], volunteer := [] } := by
  decide

/-- C5: the contact extractor is NOT restricted to the preamble. On
    "Jane Doe\nEXPERIENCE\nEngineer jane@x.com" the segmenter recognizes
    the header boundary EXPERIENCE at line 1, the preamble "Jane Doe"
    contains no email match, and yet the assembled contact.email is
    "jane@x.com", taken from text after the first header line: the
    HEADER_PATTERN search is compiled without re.MULTILINE, so its `^`
    anchor only matches at the start of the whole string and the
    preamble cut never happens unless the very first line is a header. -/
theorem C5_claim :
    boundaryList (pySplitlines (normalize_text_preserve_tabs
        (lc "Jane Doe\nEXPERIENCE\nEngineer jane@x.com"))) = [(1, "EXPERIENCE")] ∧
    firstSomeBy emailAt (lc "Jane Doe") = none ∧
    (parse_resume_text (lc "Jane Doe\nEXPERIENCE\nEngineer jane@x.com")).map
        (fun r => r.contact.email) = .ok (some (lc "jane@x.com")) := by
  refine ⟨by decide, by decide, by decide⟩

/-- C8 counterexample: for the Education chunk "MIT\nBS CS\n- GPA: 3.9"
    the GPA pattern matches the bullet line, yet the item's gpa stays
    none and the bullet is kept: the code only searches line index 1,
    never the bullets. -/
theorem C8_counterexample :
    (parse_education (lc "MIT\nBS CS\n- GPA: 3.9")).map
        (fun items => items.map (fun e => (e.gpa, e.bullets))) =
      .ok [(none, [lc "GPA: 3.9"])] ∧
    searchGpa (lc "GPA: 3.9") = some (lc "3.9") ∧
    (none : Option LC) ≠ some (lc "3.9") := by
  refine ⟨by decide, by decide, by decide⟩

theorem eduDateScan_sublist (all : List LC) (l : List LC) :
    (eduDateScan all l).2.Sublist all := by
  induction l with
  | nil => exact List.Sublist.refl all
  | cons b rest ih =>
    simp only [eduDateScan]
    cases hx : extract_dates_from_text b with
    | mk sd ed =>
      cases sd with
      | some s => exact List.filter_sublist all
      | none => exact ih

/-- C8 (amended): for every non-empty Education chunk the GPA field is
    populated solely from line index 1 of the chunk (none when the chunk
    has fewer than two lines); a GPA match on a bullet line is never used
    and never removes the bullet — bullets only ever shrink through the
    date-fallback scan, so they form a sublist of the raw bullet list. -/
theorem C8_claim (lines : List LC) (h : lines ≠ []) :
    ∃ item : EducationItem, parse_education_chunk lines = .ok item ∧
      item.gpa = (match lines.get? 1 with
                  | some l => searchGpa l
                  | none => none) ∧
      item.bullets.Sublist
        (if 3 ≤ lines.length then bullets (joinNl (lines.drop 2)) else []) := by
  rcases lines with _ | ⟨l0, rest⟩
  · exact absurd rfl h
  rcases rest with _ | ⟨l1, rest2⟩
  · simp only [parse_education_chunk,
      show pyNth [l0] 0 = Except.ok l0 from rfl, ok_bind]
    rw [if_neg (by simp)]
    exact ⟨_, rfl, rfl, List.nil_sublist _⟩
  · simp only [parse_education_chunk,
      show pyNth (l0 :: l1 :: rest2) 0 = Except.ok l0 from rfl, ok_bind]
    rw [if_pos (by simp)]
    rw [show pyNth (l0 :: l1 :: rest2) 1 = Except.ok l1 from rfl]
    simp only [ok_bind, pure_eq_ok]
    generalize hx : extract_dates_from_text l1 = x
    rcases x with ⟨sd, ed⟩
    cases hfd : fmtDates sd ed with
    | some d => exact ⟨_, rfl, rfl, List.Sublist.refl _⟩
    | none =>
      by_cases hbe : (if 3 ≤ (l0 :: l1 :: rest2).length
          then bullets (joinNl ((l0 :: l1 :: rest2).drop 2)) else []).isEmpty
      · rw [if_pos hbe]
        exact ⟨_, rfl, rfl, List.Sublist.refl _⟩
      · rw [if_neg hbe]
        rcases hscan : eduDateScan
            (if 3 ≤ (l0 :: l1 :: rest2).length
             then bullets (joinNl ((l0 :: l1 :: rest2).drop 2)) else [])
            (if 3 ≤ (l0 :: l1 :: rest2).length
             then bullets (joinNl ((l0 :: l1 :: rest2).drop 2)) else [])
          with ⟨d2, b2⟩
        refine ⟨_, rfl, rfl, ?_⟩
        have hs := eduDateScan_sublist
          (if 3 ≤ (l0 :: l1 :: rest2).length
           then bullets (joinNl ((l0 :: l1 :: rest2).drop 2)) else [])
          (if 3 ≤ (l0 :: l1 :: rest2).length
           then bullets (joinNl ((l0 :: l1 :: rest2).drop 2)) else [])
        rw [hscan] at hs
        exact hs

theorem C8_claim_witness :
    ∃ item : EducationItem,
      parse_education_chunk [lc "MIT", lc "BS CS, GPA: 3.9/4.0"] = .ok item ∧
      item.gpa = (match ([lc "MIT", lc "BS CS, GPA: 3.9/4.0"] : List LC).get? 1 with
                  | some l => searchGpa l
                  | none => none) ∧
      item.bullets.Sublist
        (if 3 ≤ ([lc "MIT", lc "BS CS, GPA: 3.9/4.0"] : List LC).length
         then bullets (joinNl (([lc "MIT", lc "BS CS, GPA: 3.9/4.0"] : List LC).drop 2))
         else []) :=
  C8_claim [lc "MIT", lc "BS CS, GPA: 3.9/4.0"] (by decide)
